import Mathlib

/-!
# Verification of the swagger_processor core

A shallow embedding of `src/utils.rs`, `src/types.rs` and `src/processor.rs`
of the `swagger_processor` crate, together with theorems settling the spec
claims about path canonicalization, the split stage and the merge stage.

Modelling conventions:
* `serde_json::Value` is embedded as the inductive `Json` below; objects are
  insertion-ordered association lists (serde maps hold each key at most once;
  where a statement depends on that, it appears as an explicit hypothesis).
  Numbers are embedded as `Int` (no claim exercises floating point).
* YAML serialization (`serde_yaml::to_string` / `from_str`) is an external
  collaborator declared out of scope by the design (§1, §6): the `yaml`
  fields of fragments hold the document tree itself, and serialization /
  parsing are the identity on it.  All structural content of the Rust
  functions is embedded faithfully.
* Rust strings are embedded as `String`, manipulated through `List Char`
  (`&str` operations such as `split('/')`, `trim_start_matches('/')` and
  `find('/')` are reproduced at character granularity).
-/

/-- Embedding of `serde_json::Value`: the generic document tree. -/
inductive Json where
  | null
  | bool (b : Bool)
  | num (n : Int)
  | str (s : String)
  | arr (elems : List Json)
  | obj (fields : List (String × Json))

/-- First binding of a key in an object field list (serde maps bind a key once,
so first-match lookup agrees with map lookup). -/
def findField : List (String × Json) → String → Option Json
  | [], _ => none
  | (k0, v0) :: rest, k => if k0 = k then some v0 else findField rest k

/-- Embedding of `Value::get(key)` composed with the object check:
`none` when the value is not an object or lacks the key. -/
def Json.get? : Json → String → Option Json
  | .obj fs, k => findField fs k
  | _, _ => none

/-- Replace the value bound to the first occurrence of a key, keeping the
rest of the field list; identity when the key is absent.  Embeds the
in-place update done through `get_mut` in `merge_path_group`. -/
def setField : List (String × Json) → String → Json → List (String × Json)
  | [], _, _ => []
  | (k0, v0) :: rest, k, v =>
    if k0 = k then (k0, v) :: rest else (k0, v0) :: setField rest k v

/-! ## utils.rs -/

/-- Maximal nonempty runs of non-`'/'` characters: the combined effect of
`path.split('/')` followed by `.filter(|p| !p.is_empty())` in
`normalize_path` (the preceding `trim_start_matches('/')` only removes
characters that the empty-segment filter drops anyway).  `acc` holds the
current run, reversed. -/
def segsAux : List Char → List Char → List String
  | [], acc => if acc.isEmpty then [] else [String.mk acc.reverse]
  | c :: cs, acc =>
    if c = '/' then
      (if acc.isEmpty then segsAux cs [] else String.mk acc.reverse :: segsAux cs [])
    else segsAux cs (c :: acc)

/-- The nonempty `'/'`-separated segments of a route string. -/
def segsOf (path : String) : List String := segsAux path.toList []

/-- The version-segment test of `normalize_path`: length above one, first
character `'v'`, all remaining characters ASCII digits. -/
def isVersionSeg (s : String) : Bool :=
  match s.toList with
  | 'v' :: rest => !rest.isEmpty && rest.all Char.isDigit
  | _ => false

/-- The `start_index` advance of `normalize_path`: skip a leading `"api"`
segment (exact, case-sensitive comparison), then skip one version
segment. -/
def dropPrefixSegs (parts : List String) : List String :=
  let p1 := match parts with
    | [] => []
    | s :: rest => if s = "api" then rest else s :: rest
  match p1 with
  | [] => []
  | s :: rest => if isVersionSeg s then rest else s :: rest

/-- `Vec::<&str>::join("/")` at character granularity. -/
def joinSegs : List String → List Char
  | [] => []
  | [s] => s.toList
  | s :: rest => s.toList ++ '/' :: joinSegs rest

/-- Embedding of `normalize_path` from `src/utils.rs`: split into nonempty
segments, drop a leading `"api"` and then one `v<digits>` segment, rejoin
with `"/"` behind a single leading slash, `"/"` when nothing remains. -/
def normalize_path (path : String) : String :=
  let rem := dropPrefixSegs (segsOf path)
  if rem.isEmpty then "/" else String.mk ('/' :: joinSegs rem)

/-- Embedding of `get_root_path` from `src/utils.rs`: strip every leading
`'/'`, take the prefix before the next `'/'` (the whole remainder when no
slash follows), prepend `"/"`; `"/"` when that prefix is empty. -/
def get_root_path (path : String) : String :=
  let t := path.toList.dropWhile (fun c => c = '/')
  let first := t.takeWhile (fun c => c ≠ '/')
  if first.isEmpty then "/" else String.mk ('/' :: first)

/-! ## types.rs -/

/-- Embedding of `APIPath`: a per-resource fragment; `yaml` holds the
rendered document tree (serialization is the identity in this model). -/
structure APIPath where
  path : String
  yaml : Json

/-- Embedding of `APIVerb`: a per-operation fragment. -/
structure APIVerb where
  verb : String
  path : String
  root_path : String
  yaml : Json

/-- Embedding of the `APIDef` enum. -/
inductive APIDef where
  | path (p : APIPath)
  | verb (v : APIVerb)

/-! ## processor.rs: split stage -/

/-- The top-level members of the original document other than `"paths"`,
in original order: the skeleton copied into every rendered fragment. -/
def skeletonFields (d : Json) : List (String × Json) :=
  match d with
  | .obj fs => fs.filter (fun e => e.1 ≠ "paths")
  | _ => []

/-- Embedding of `create_path_yaml` up to serialization: the working
document handed to `serde_yaml::to_string` — skeleton members followed by
a `"paths"` member holding the single canonical path. -/
def create_path_yaml (d : Json) (path : String) (path_data : Json) : Json :=
  .obj (skeletonFields d ++ [("paths", .obj [(path, path_data)])])

/-- Embedding of `create_verb_yaml` up to serialization: skeleton members
followed by a `"paths"` member holding one method under one path. -/
def create_verb_yaml (d : Json) (path verb : String) (verb_data : Json) : Json :=
  .obj (skeletonFields d ++ [("paths", .obj [(path, .obj [(verb, verb_data)])])])

/-- One step of the guarded inserts used by `merge_path_data` and
`merge_path_group`: append the binding unless its key is already bound. -/
def insertIfAbsent (m : List (String × Json)) (kv : String × Json) : List (String × Json) :=
  if (findField m kv.1).isSome then m else m ++ [kv]

/-- The method-map union of `merge_path_data` for groups of two or more
routes: walk the group entries in order, adding each method not yet
present (first-seen-wins); non-object route values contribute nothing. -/
def mergeVerbList (entries : List (String × Json)) : List (String × Json) :=
  entries.foldl
    (fun m e => match e.2 with
      | .obj fs => fs.foldl insertIfAbsent m
      | _ => m) []

/-- Embedding of `merge_path_data`: a single-entry group returns its raw
route value unchanged; larger groups take the first-seen-wins union of
their method maps. -/
def merge_path_data (entries : List (String × Json)) : Json :=
  match entries with
  | [e] => e.2
  | _ => .obj (mergeVerbList entries)

/-- ASCII uppercasing of a method name (`str::to_uppercase` restricted to
the ASCII method strings the documents carry). -/
def upperVerb (s : String) : String := String.mk (s.toList.map Char.toUpper)

/-- Embedding of `process_path_group`: one `APIPath` for the group, then
one `APIVerb` per method of the merged method map (none when the merged
value is not an object). -/
def process_path_group (d : Json) (gkey : String) (entries : List (String × Json)) : List APIDef :=
  let merged := merge_path_data entries
  APIDef.path ⟨gkey, create_path_yaml d gkey merged⟩ ::
    (match merged with
     | .obj fs =>
        fs.map (fun f =>
          APIDef.verb ⟨upperVerb f.1, gkey, get_root_path gkey, create_verb_yaml d gkey f.1 f.2⟩)
     | _ => [])

/-- Append an element to the entry list of its key, creating the entry at
the end when absent: the `entry(..).or_insert_with(..).push(..)` and
`entry(..).or_default().push(..)` idioms of the two grouping loops. -/
def addToGroups {α : Type} (gs : List (String × List α)) (k : String) (a : α) :
    List (String × List α) :=
  match gs with
  | [] => [(k, [a])]
  | (k0, es) :: rest =>
    if k0 = k then (k0, es ++ [a]) :: rest else (k0, es) :: addToGroups rest k a

/-- Group a list by a string key, keys in first-encounter order, each
entry list in input order.  Models the `HashMap` grouping of both stages;
the map's own iteration order is unspecified in Rust, so every theorem
below reads the result only through per-key lookups, key multisets, or
order-insensitive counts. -/
def groupByKey {α : Type} (key : α → String) (l : List α) : List (String × List α) :=
  l.foldl (fun gs a => addToGroups gs (key a) a) []

/-- Embedding of `split_definition_parallel`: when `"paths"` is an object,
group its routes by canonical path and emit each group's fragments; an
absent or non-object `"paths"` yields the empty list. -/
def split_definition_parallel (d : Json) : List APIDef :=
  match d.get? "paths" with
  | some (.obj pf) =>
    (groupByKey (fun e => normalize_path e.1) pf).flatMap
      (fun g => process_path_group d g.1 g.2)
  | _ => []

/-! ## processor.rs: merge stage -/

/-- The conflict step of `merge_path_group`: when both the accumulated
document and the incoming one carry an object-valued `"paths"` member,
extend the accumulated `"paths"` with the incoming entries whose path key
is not yet present (`entry(..).or_insert_with(..)`); otherwise leave the
accumulated document unchanged. -/
def mergeIntoPathsObj (m py : Json) : Json :=
  match m, py.get? "paths" with
  | .obj mf, some (.obj pfp) =>
    match findField mf "paths" with
    | some (.obj mfp) => .obj (setField mf "paths" (.obj (pfp.foldl insertIfAbsent mfp)))
    | _ => m
  | _, _ => m

/-- Embedding of `merge_path_group`: fold the group's path fragments in
order, seeding with the first document and applying the `"paths"` merge
for the rest (verb fragments are skipped); an all-verb group yields the
empty object. -/
def merge_path_group (base : String) (ps : List APIDef) : APIDef :=
  let merged := ps.foldl
    (fun acc d => match d with
      | .path pd =>
        (match acc with
         | none => some pd.yaml
         | some m => some (mergeIntoPathsObj m pd.yaml))
      | .verb _ => acc) none
  .path ⟨base, merged.getD (.obj [])⟩

/-- The `matches!(item, APIDef::Path(_))` partition predicate. -/
def defIsPath : APIDef → Bool
  | .path _ => true
  | .verb _ => false

/-- The grouping key of the merge stage: the resource root of a fragment's
canonical path. -/
def defRootKey : APIDef → String
  | .path pd => get_root_path pd.path
  | .verb v => get_root_path v.path

/-- Embedding of `merge_definitions_parallel`: separate path and verb
fragments, group the path fragments by resource root, rewrite a singleton
group's path to its root, merge larger groups with `merge_path_group`,
and append the verb fragments untouched. -/
def merge_definitions_parallel (l : List APIDef) : List APIDef :=
  let paths := l.filter defIsPath
  let verbs := l.filter (fun d => !(defIsPath d))
  let groups := groupByKey defRootKey paths
  let mergedPaths := groups.map
    (fun g => match g.2 with
      | [d] => (match d with
         | .path pd => APIDef.path ⟨g.1, pd.yaml⟩
         | v => v)
      | ps => merge_path_group g.1 ps)
  mergedPaths ++ verbs

/-! ## Observations and spec-side notions used by the theorems -/

/-- The `APIDef::Path` projection. -/
def asPath : APIDef → Option APIPath
  | .path p => some p
  | _ => none

/-- The `APIDef::Verb` projection. -/
def asVerb : APIDef → Option APIVerb
  | .verb v => some v
  | _ => none

/-- The path fragments of a fragment list, in order. -/
def pathFragsOf (l : List APIDef) : List APIPath := l.filterMap asPath

/-- The verb fragments of a fragment list, in order. -/
def verbFragsOf (l : List APIDef) : List APIVerb := l.filterMap asVerb

/-- The (canonical path, method) keys of the verb fragments, in order. -/
def verbKeyList (l : List APIDef) : List (String × String) :=
  (verbFragsOf l).map (fun v => (v.path, v.verb))

/-- The field list of an object, `[]` for non-objects. -/
def objFields : Json → List (String × Json)
  | .obj fs => fs
  | _ => []

/-- Distinct elements of a string list in first-occurrence order: the
order-sensitive statement of "the distinct keys" used by the claims. -/
def firstDedup (l : List String) : List String :=
  l.foldl (fun acc s => if s ∈ acc then acc else acc ++ [s]) []

/-- The distinct (canonical path, method) pairs surviving intra-route
merging, in processing order: per canonical group, one pair per method of
the merged method map. -/
def routePairs (pf : List (String × Json)) : List (String × String) :=
  (groupByKey (fun e => normalize_path e.1) pf).flatMap
    (fun g => (objFields (merge_path_data g.2)).map (fun f => (g.1, f.1)))

/-- Well-formedness that `serde_json` guarantees for parsed documents and
my association-list model does not: an object value binds each key once.
(Checked one level deep — exactly the level the route-value merge reads.) -/
def valKeysNodupB (v : Json) : Bool :=
  match v with
  | .obj fs => decide ((fs.map Prod.fst).Nodup)
  | _ => true

/-- The shape every fragment document produced by the split stage has: an
object with an object-valued `"paths"` member. -/
def hasPathsObjB (j : Json) : Bool :=
  match j.get? "paths" with
  | some (.obj _) => true
  | _ => false

/-- Fragment well-formedness for the merge-stage theorems: path fragments
carry a document with an object-valued `"paths"` member (verb fragments
are unconstrained, the merge never opens them). -/
def fragWFB : APIDef → Bool
  | .path pd => hasPathsObjB pd.yaml
  | .verb _ => true

/-- The fold of `merge_path_group` on the raw document list: first
document seeds, later ones are merged with `mergeIntoPathsObj`. -/
def foldMergeOpt (ys : List Json) : Option Json :=
  ys.foldl
    (fun acc y => match acc with
      | none => some y
      | some m => some (mergeIntoPathsObj m y)) none

/-- First-seen-wins winner for one `"paths"` entry across a document list:
the entry of the first document whose `"paths"` object binds the key. -/
def firstPathsHit : List Json → String → Option Json
  | [], _ => none
  | y :: ys, k =>
    match y.get? "paths" with
    | some po =>
      (match po.get? k with
       | some v => some v
       | none => firstPathsHit ys k)
    | none => firstPathsHit ys k

/-- The path fragments of a list whose canonical path has the given
resource root, in order. -/
def pathsWithRoot (l : List APIDef) (k : String) : List APIPath :=
  (pathFragsOf l).filter (fun p => get_root_path p.path = k)

/-- The document of the unique path fragment bearing the given path key,
when present. -/
def findYamlAt (l : List APIDef) (k : String) : Option Json :=
  ((pathFragsOf l).find? (fun p => p.path = k)).map APIPath.yaml

/-- The already-normalized shape under which `normalize_path` is a no-op:
the canonical form's first segment is neither the literal `"api"` nor a
`v<digits>` version segment. -/
def headSegOkB : List String → Bool
  | [] => true
  | s :: _ => !(s = "api" : Bool) && !isVersionSeg s

/-- Combination of two partial merge results, in order: the reduce step of
a partitioned run of the merge stage (absent sides pass through, present
sides are merged with the conflict step of `merge_path_group`). -/
def combineO : Option Json → Option Json → Option Json
  | none, b => b
  | some m, none => some m
  | some m, some r => some (mergeIntoPathsObj m r)

/-- An optional document as a fragment-document list. -/
def optToList : Option Json → List Json
  | none => []
  | some m => [m]

/-- The path keys bound by a document's `"paths"` object, in order: the
observation that separates two merge results. -/
def pathsKeysOf (j : Json) : List String :=
  match j.get? "paths" with
  | some (.obj fs) => fs.map Prod.fst
  | _ => []

/-! ## Lemmas about the path utilities -/

theorem segsAux_wf (cs : List Char) :
    ∀ acc, '/' ∉ acc → ∀ s ∈ segsAux cs acc, s ≠ "" ∧ '/' ∉ s.toList := by
  induction cs with
  | nil =>
    intro acc hacc s hs
    simp only [segsAux] at hs
    by_cases h : acc.isEmpty
    · simp [h] at hs
    · simp [h] at hs
      subst hs
      constructor
      · intro hempty
        have : acc.reverse = [] := congrArg String.data hempty
        simp at this
        simp [this] at h
      · simpa [String.toList] using fun hm => hacc (List.mem_reverse.mp hm)
  | cons c cs ih =>
    intro acc hacc s hs
    simp only [segsAux] at hs
    by_cases hc : c = '/'
    · simp only [hc, if_pos rfl] at hs
      by_cases h : acc.isEmpty
      · simp [h] at hs
        exact ih [] (by simp) s hs
      · simp [h] at hs
        rcases hs with hs | hs
        · subst hs
          constructor
          · intro hempty
            have : acc.reverse = [] := congrArg String.data hempty
            simp at this
            simp [this] at h
          · simpa [String.toList] using fun hm => hacc (List.mem_reverse.mp hm)
        · exact ih [] (by simp) s hs
    · simp only [if_neg hc] at hs
      refine ih (c :: acc) ?_ s hs
      intro hm
      rcases List.mem_cons.mp hm with h1 | h1
      · exact hc h1.symm
      · exact hacc h1

theorem segsOf_wf (p : String) : ∀ s ∈ segsOf p, s ≠ "" ∧ '/' ∉ s.toList :=
  segsAux_wf p.toList [] (by simp)

theorem segsAux_slash (l : List Char) (acc : List Char) :
    segsAux ('/' :: l) acc =
      if acc.isEmpty then segsAux l [] else String.mk acc.reverse :: segsAux l [] := by
  rfl

theorem segsAux_cons_ne (c : Char) (cs acc : List Char) (h : ¬ c = '/') :
    segsAux (c :: cs) acc = segsAux cs (c :: acc) := by
  simp [segsAux, h]

theorem segsAux_run (cs : List Char) (h : '/' ∉ cs) (l : List Char) :
    ∀ acc, segsAux (cs ++ l) acc = segsAux l (cs.reverse ++ acc) := by
  induction cs with
  | nil => intro acc; simp
  | cons c cs ih =>
    intro acc
    have hc : ¬ c = '/' := fun hh => h (by simp [hh])
    have hcs : '/' ∉ cs := fun hm => h (List.mem_cons_of_mem _ hm)
    calc segsAux ((c :: cs) ++ l) acc
        = segsAux (cs ++ l) (c :: acc) := by
          rw [List.cons_append, segsAux_cons_ne c _ _ hc]
      _ = segsAux l (cs.reverse ++ (c :: acc)) := ih hcs (c :: acc)
      _ = segsAux l ((c :: cs).reverse ++ acc) := by simp

theorem segsAux_join (rem : List String)
    (h : ∀ s ∈ rem, s ≠ "" ∧ '/' ∉ s.toList) :
    segsAux (joinSegs rem) [] = rem := by
  induction rem with
  | nil => rfl
  | cons s rest ih =>
    have hs := h s (List.mem_cons_self s rest)
    have hmk : String.mk s.toList = s := rfl
    have hrev : ¬ (s.toList.reverse).isEmpty = true := by
      rw [List.isEmpty_iff, List.reverse_eq_nil_iff]
      intro hnil
      exact hs.1 (by rw [← hmk, hnil])
    cases rest with
    | nil =>
      show segsAux s.toList [] = [s]
      have h1 : segsAux (s.toList ++ []) [] = segsAux [] (s.toList.reverse ++ []) :=
        segsAux_run s.toList hs.2 [] []
      rw [List.append_nil] at h1
      rw [List.append_nil] at h1
      rw [h1]
      show (if (s.toList.reverse).isEmpty then [] else [String.mk s.toList.reverse.reverse]) = [s]
      rw [if_neg hrev, List.reverse_reverse, hmk]
    | cons r rest2 =>
      show segsAux (s.toList ++ '/' :: joinSegs (r :: rest2)) [] = s :: r :: rest2
      rw [segsAux_run s.toList hs.2 _ [], List.append_nil, segsAux_slash]
      rw [if_neg hrev, List.reverse_reverse, hmk]
      rw [ih (fun t ht => h t (List.mem_cons_of_mem _ ht))]

theorem dropPrefixSegs_subset (parts : List String) :
    ∀ s ∈ dropPrefixSegs parts, s ∈ parts := by
  intro s hs
  simp only [dropPrefixSegs] at hs
  cases parts with
  | nil => simpa using hs
  | cons a rest =>
    by_cases ha : a = "api"
    · simp only [if_pos ha] at hs
      cases rest with
      | nil => simpa using hs
      | cons b rest2 =>
        by_cases hb : isVersionSeg b
        · simp only [if_pos hb] at hs
          exact List.mem_cons_of_mem _ (List.mem_cons_of_mem _ hs)
        · simp only [if_neg hb] at hs
          exact List.mem_cons_of_mem _ hs
    · simp only [if_neg ha] at hs
      by_cases hv : isVersionSeg a
      · simp only [if_pos hv] at hs
        exact List.mem_cons_of_mem _ hs
      · simp only [if_neg hv] at hs
        exact hs

theorem segsOf_normalize (p : String) :
    segsOf (normalize_path p) = dropPrefixSegs (segsOf p) := by
  have hwf : ∀ s ∈ dropPrefixSegs (segsOf p), s ≠ "" ∧ '/' ∉ s.toList :=
    fun s hs => segsOf_wf p s (dropPrefixSegs_subset _ s hs)
  simp only [normalize_path]
  by_cases h : (dropPrefixSegs (segsOf p)).isEmpty
  · rw [if_pos h]
    rw [List.isEmpty_iff] at h
    rw [h]
    rfl
  · rw [if_neg h]
    show segsAux ('/' :: joinSegs (dropPrefixSegs (segsOf p))) [] = _
    simp only [segsAux, if_pos rfl, List.isEmpty_nil, if_pos rfl]
    exact segsAux_join _ hwf

theorem dropPrefixSegs_fix (parts : List String) (h : headSegOkB parts = true) :
    dropPrefixSegs parts = parts := by
  cases parts with
  | nil => rfl
  | cons s rest =>
    simp only [headSegOkB, Bool.and_eq_true, Bool.not_eq_true'] at h
    obtain ⟨h1, h2⟩ := h
    have hs : s ≠ "api" := by simpa using h1
    simp only [dropPrefixSegs, if_neg hs, Bool.not_eq_true] at *
    rw [if_neg (by simp [h2])]

theorem normalize_path_eq (p : String) :
    normalize_path p =
      if (dropPrefixSegs (segsOf p)).isEmpty then "/"
      else String.mk ('/' :: joinSegs (dropPrefixSegs (segsOf p))) := rfl

theorem dropPrefix_segsOf_wf (p : String) :
    ∀ s ∈ dropPrefixSegs (segsOf p), s ≠ "" ∧ '/' ∉ s.toList :=
  fun s hs => segsOf_wf p s (dropPrefixSegs_subset _ s hs)

/-! ## Claim C1: idempotence of path normalization -/

/-- C1 (counterexample): `normalize_path` is not idempotent on the code as
written — a route whose canonical form still begins with an `"api"`
segment is stripped further by a second application.  At the concrete
input `"/api/api/users"` the first application yields `"/api/users"` and
the second `"/users"`. -/
theorem c1_normalize_not_idempotent :
    normalize_path (normalize_path "/api/api/users")
      ≠ normalize_path "/api/api/users" := by decide

/-- C1 (amended): `normalize_path` is idempotent at every input whose
canonical form's first segment is neither the literal `"api"` nor a
`v<digits>` version segment; on such inputs
`normalize(normalize(p)) = normalize(p)`. -/
theorem c1_normalize_idempotent_amended (p : String)
    (h : headSegOkB (dropPrefixSegs (segsOf p)) = true) :
    normalize_path (normalize_path p) = normalize_path p := by
  rw [normalize_path_eq (normalize_path p), segsOf_normalize p,
    dropPrefixSegs_fix _ h, ← normalize_path_eq p]

/-- C1 (witness): the amended idempotence theorem applied at `"/users"`. -/
theorem c1_normalize_idempotent_amended_witness :
    headSegOkB (dropPrefixSegs (segsOf "/users")) = true ∧
      normalize_path (normalize_path "/users") = normalize_path "/users" :=
  ⟨by decide, c1_normalize_idempotent_amended "/users" (by decide)⟩

/-! ## Claim C5: documented values of the path utilities -/

/-- C5: `normalize_path` and `get_root_path` return exactly the documented
values on each documented input, including the resource key of the
canonicalized `"/api/v1/users/123/posts"`. -/
theorem c5_documented_values :
    normalize_path "/users" = "/users"
    ∧ normalize_path "/api/v1/users" = "/users"
    ∧ normalize_path "/v10/users" = "/users"
    ∧ normalize_path "/v1a/users" = "/v1a/users"
    ∧ normalize_path "/api" = "/"
    ∧ normalize_path "" = "/"
    ∧ normalize_path "/v1" = "/"
    ∧ get_root_path (normalize_path "/api/v1/users/123/posts") = "/users" := by
  decide

/-! ## Claim C9: totality and shape of path normalization -/

/-- C9: `normalize_path` is total by construction (a Lean function on all
of `String`, covering the empty string) and shape-preserving: every output
consists of a single leading `'/'` followed by a `"/"`-join of segments
that are all nonempty and slash-free — hence the output starts with `"/"`
and contains no empty segments (`"/"` itself is the empty join). -/
theorem c9_normalize_total_shape (p : String) :
    ∃ rem, (∀ s ∈ rem, s ≠ "" ∧ '/' ∉ s.toList)
      ∧ (normalize_path p).toList = '/' :: joinSegs rem := by
  refine ⟨dropPrefixSegs (segsOf p), dropPrefix_segsOf_wf p, ?_⟩
  rw [normalize_path_eq]
  by_cases hh : (dropPrefixSegs (segsOf p)).isEmpty
  · rw [if_pos hh]
    rw [List.isEmpty_iff] at hh
    rw [hh]
    rfl
  · rw [if_neg hh]
    rfl

/-! ## Lemmas about field lookups -/

theorem findField_cons (k0 : String) (v0 : Json) (rest : List (String × Json)) (k : String) :
    findField ((k0, v0) :: rest) k = if k0 = k then some v0 else findField rest k := rfl

theorem findField_append (fs gs : List (String × Json)) (k : String) :
    findField (fs ++ gs) k =
      match findField fs k with
      | some v => some v
      | none => findField gs k := by
  induction fs with
  | nil => rfl
  | cons e fs ih =>
    obtain ⟨k0, v0⟩ := e
    by_cases h : k0 = k
    · simp [findField_cons, h]
    · simp [findField_cons, h, ih]

theorem findField_filter_self (fs : List (String × Json)) (k0 : String) :
    findField (fs.filter (fun e => e.1 ≠ k0)) k0 = none := by
  induction fs with
  | nil => rfl
  | cons e fs ih =>
    obtain ⟨k1, v1⟩ := e
    rw [List.filter_cons]
    by_cases h : k1 = k0
    · rw [if_neg (by simp [h])]
      exact ih
    · rw [if_pos (by simp [h]), findField_cons, if_neg h]
      exact ih

theorem findField_filter_ne (fs : List (String × Json)) (k0 k : String) (hk : k ≠ k0) :
    findField (fs.filter (fun e => e.1 ≠ k0)) k = findField fs k := by
  induction fs with
  | nil => rfl
  | cons e fs ih =>
    obtain ⟨k1, v1⟩ := e
    rw [List.filter_cons]
    by_cases h : k1 = k0
    · have h2 : ¬ k1 = k := fun hh => hk (hh ▸ h)
      rw [if_neg (by simp [h]), findField_cons, if_neg h2, ih]
    · rw [if_pos (by simp [h]), findField_cons, findField_cons, ih]

theorem findField_skeleton_paths (d : Json) :
    findField (skeletonFields d) "paths" = none := by
  cases d <;> first
    | rfl
    | exact findField_filter_self _ "paths"

theorem findField_skeleton_ne (d : Json) (k : String) (hk : k ≠ "paths") :
    findField (skeletonFields d) k = d.get? k := by
  cases d <;> first
    | rfl
    | exact findField_filter_ne _ "paths" k hk

/-! ## Claim C6: degenerate "paths" members short-circuit the split -/

/-- C6: whenever the `"paths"` member is absent, not an object, or an
empty object, the split stage returns the empty fragment list — and, the
embedding being a total function, it does so without failing. -/
theorem c6_degenerate_paths_yield_empty (d : Json)
    (h : ∀ fs, d.get? "paths" = some (Json.obj fs) → fs = []) :
    split_definition_parallel d = [] := by
  cases hd : d.get? "paths" with
  | none => simp [split_definition_parallel, hd]
  | some j =>
    cases j
    case obj fs =>
      have hfs : fs = [] := h fs (by rw [hd])
      subst hfs
      simp [split_definition_parallel, hd, groupByKey]
    all_goals simp [split_definition_parallel, hd]

/-- C6 (witness): the short-circuit theorem applied to a document whose
`"paths"` member is the empty object. -/
theorem c6_degenerate_paths_yield_empty_witness :
    split_definition_parallel
      (Json.obj [("openapi", Json.str "3.0.0"), ("paths", Json.obj [])]) = [] := by
  apply c6_degenerate_paths_yield_empty
  intro fs hf
  have h1 : Json.obj [] = Json.obj fs := Option.some.inj hf
  exact (Json.obj.inj h1).symm

/-! ## Claim C7: structure of rendered fragments -/

/-- C7: in the rendered working document (serialization and re-parsing
are the identity on the tree, per the losslessness contract of the
out-of-scope serializer), the `"paths"` member is exactly the one-entry
object for the fragment — `{canonicalPath: documentBody}` for a path
fragment, `{canonicalPath: {method: documentBody}}` for a verb fragment —
and every other top-level member looks up to the same value as in the
original document (equivalently, the skeleton: the document minus
`"paths"`). -/
theorem c7_render_round_trip (d body vdata : Json) (p verb : String) :
    ((create_path_yaml d p body).get? "paths" = some (Json.obj [(p, body)])
    ∧ ∀ k, k ≠ "paths" → (create_path_yaml d p body).get? k = d.get? k)
    ∧ ((create_verb_yaml d p verb vdata).get? "paths"
          = some (Json.obj [(p, Json.obj [(verb, vdata)])])
    ∧ ∀ k, k ≠ "paths" → (create_verb_yaml d p verb vdata).get? k = d.get? k) := by
  refine ⟨⟨?_, ?_⟩, ?_, ?_⟩
  · show findField (skeletonFields d ++ [("paths", Json.obj [(p, body)])]) "paths" = _
    rw [findField_append, findField_skeleton_paths]
    rfl
  · intro k hk
    show findField (skeletonFields d ++ [("paths", Json.obj [(p, body)])]) k = _
    rw [findField_append]
    have h2 : findField [("paths", Json.obj [(p, body)])] k = none := by
      rw [findField_cons, if_neg (fun hh : "paths" = k => hk hh.symm)]
      rfl
    rw [h2, findField_skeleton_ne d k hk]
    cases d.get? k <;> rfl
  · show findField (skeletonFields d ++ [("paths", Json.obj [(p, Json.obj [(verb, vdata)])])])
        "paths" = _
    rw [findField_append, findField_skeleton_paths]
    rfl
  · intro k hk
    show findField (skeletonFields d ++ [("paths", Json.obj [(p, Json.obj [(verb, vdata)])])])
        k = _
    rw [findField_append]
    have h2 : findField [("paths", Json.obj [(p, Json.obj [(verb, vdata)])])] k = none := by
      rw [findField_cons, if_neg (fun hh : "paths" = k => hk hh.symm)]
      rfl
    rw [h2, findField_skeleton_ne d k hk]
    cases d.get? k <;> rfl

/-- C7 (witness): the round-trip theorem evaluated on a concrete document
and fragment content. -/
theorem c7_render_round_trip_witness :
    (create_path_yaml (Json.obj [("info", Json.str "t"), ("paths", Json.null)])
        "/users" (Json.obj [("get", Json.num 1)])).get? "paths"
      = some (Json.obj [("/users", Json.obj [("get", Json.num 1)])])
    ∧ (create_path_yaml (Json.obj [("info", Json.str "t"), ("paths", Json.null)])
        "/users" (Json.obj [("get", Json.num 1)])).get? "info"
      = some (Json.str "t") := by
  have h := c7_render_round_trip (Json.obj [("info", Json.str "t"), ("paths", Json.null)])
    (Json.obj [("get", Json.num 1)]) Json.null "/users" "get"
  exact ⟨h.1.1, (h.1.2 "info" (by decide)).trans (by rfl)⟩

/-! ## Lemmas about grouping -/

theorem addToGroups_nil {α : Type} (k0 : String) (a : α) :
    addToGroups ([] : List (String × List α)) k0 a = [(k0, [a])] := rfl

theorem addToGroups_cons {α : Type} (k1 : String) (es : List α)
    (rest : List (String × List α)) (k0 : String) (a : α) :
    addToGroups ((k1, es) :: rest) k0 a =
      if k1 = k0 then (k1, es ++ [a]) :: rest
      else (k1, es) :: addToGroups rest k0 a := rfl

theorem mem_dedupFold (l : List String) :
    ∀ acc x, (x ∈ l.foldl (fun acc s => if s ∈ acc then acc else acc ++ [s]) acc)
      ↔ x ∈ acc ∨ x ∈ l := by
  induction l with
  | nil => intro acc x; simp
  | cons s l ih =>
    intro acc x
    rw [List.foldl_cons, ih]
    by_cases h : s ∈ acc
    · rw [if_pos h]
      constructor
      · rintro (h1 | h1)
        · exact Or.inl h1
        · exact Or.inr (List.mem_cons_of_mem _ h1)
      · rintro (h1 | h1)
        · exact Or.inl h1
        · rcases List.mem_cons.mp h1 with h2 | h2
          · exact Or.inl (h2 ▸ h)
          · exact Or.inr h2
    · rw [if_neg h]
      simp only [List.mem_append, List.mem_singleton, List.mem_cons]
      tauto

theorem mem_firstDedup (l : List String) (x : String) :
    x ∈ firstDedup l ↔ x ∈ l := by
  rw [firstDedup, mem_dedupFold]
  simp

theorem nodup_dedupFold (l : List String) :
    ∀ acc, acc.Nodup →
      (l.foldl (fun acc s => if s ∈ acc then acc else acc ++ [s]) acc).Nodup := by
  induction l with
  | nil => intro acc h; simpa using h
  | cons s l ih =>
    intro acc hacc
    rw [List.foldl_cons]
    by_cases h : s ∈ acc
    · rw [if_pos h]; exact ih acc hacc
    · rw [if_neg h]
      refine ih _ (List.nodup_append.mpr ⟨hacc, List.nodup_singleton s, ?_⟩)
      intro a ha hb
      exact h ((List.mem_singleton.mp hb) ▸ ha)

theorem nodup_firstDedup (l : List String) : (firstDedup l).Nodup :=
  nodup_dedupFold l [] List.nodup_nil

theorem firstDedup_snoc (l : List String) (s : String) :
    firstDedup (l ++ [s]) =
      if s ∈ firstDedup l then firstDedup l else firstDedup l ++ [s] := by
  simp only [firstDedup, List.foldl_append, List.foldl_cons, List.foldl_nil]

theorem addToGroups_map {α : Type} (ks : List String) (F : String → List α)
    (k0 : String) (a : α) (hnd : ks.Nodup) :
    addToGroups (ks.map (fun k => (k, F k))) k0 a =
      if k0 ∈ ks then ks.map (fun k => (k, if k = k0 then F k ++ [a] else F k))
      else ks.map (fun k => (k, F k)) ++ [(k0, [a])] := by
  induction ks with
  | nil => simp [addToGroups_nil]
  | cons k ks ih =>
    have hk : k ∉ ks := (List.nodup_cons.mp hnd).1
    have hnd2 : ks.Nodup := (List.nodup_cons.mp hnd).2
    rw [List.map_cons, addToGroups_cons]
    by_cases h : k = k0
    · subst h
      rw [if_pos rfl, if_pos (List.mem_cons_self k ks), List.map_cons, if_pos rfl]
      congr 1
      refine (List.map_congr_left ?_).symm
      intro k2 hk2
      rw [if_neg (fun hh : k2 = k => hk (hh ▸ hk2))]
    · rw [if_neg h]
      by_cases h2 : k0 ∈ ks
      · rw [if_pos (List.mem_cons_of_mem _ h2), ih hnd2, if_pos h2, List.map_cons,
          if_neg (fun hh : k = k0 => h hh)]
      · have h3 : k0 ∉ k :: ks := by
          intro hm
          rcases List.mem_cons.mp hm with h4 | h4
          · exact h h4.symm
          · exact h2 h4
        rw [if_neg h3, ih hnd2, if_neg h2]
        simp

theorem groupByKey_snoc {α : Type} (key : α → String) (l : List α) (a : α) :
    groupByKey key (l ++ [a]) = addToGroups (groupByKey key l) (key a) a := by
  simp only [groupByKey, List.foldl_append, List.foldl_cons, List.foldl_nil]

theorem groupByKey_eq {α : Type} (key : α → String) (l : List α) :
    groupByKey key l =
      (firstDedup (l.map key)).map
        (fun k => (k, l.filter (fun x => key x = k))) := by
  induction l using List.reverseRecOn with
  | nil => rfl
  | append_singleton l a ih =>
    rw [groupByKey_snoc, ih, List.map_append, List.map_singleton, firstDedup_snoc,
      addToGroups_map _ _ _ _ (nodup_firstDedup _)]
    by_cases h0 : key a ∈ firstDedup (List.map key l)
    · have h : key a ∈ List.map key l := (mem_firstDedup _ _).mp h0
      rw [if_pos h0, if_pos h0]
      refine List.map_congr_left ?_
      intro k hk
      rw [List.filter_append]
      by_cases h2 : k = key a
      · rw [if_pos h2]
        have h3 : List.filter (fun x => decide (key x = k)) [a] = [a] := by
          simp [List.filter_cons, h2.symm]
        rw [h3]
      · rw [if_neg h2]
        have h3 : List.filter (fun x => decide (key x = k)) [a] = [] := by
          simp only [List.filter_cons, List.filter_nil]
          rw [if_neg (by simpa using fun hh : key a = k => h2 hh.symm)]
        rw [h3, List.append_nil]
    · have h : key a ∉ List.map key l := fun hm => h0 ((mem_firstDedup _ _).mpr hm)
      rw [if_neg h0, if_neg h0, List.map_append, List.map_singleton]
      congr 1
      · refine List.map_congr_left ?_
        intro k hk
        rw [List.filter_append]
        have hmem : k ∈ l.map key := (mem_firstDedup _ _).mp hk
        have h3 : List.filter (fun x => decide (key x = k)) [a] = [] := by
          simp only [List.filter_cons, List.filter_nil]
          rw [if_neg (by
            simp only [decide_eq_true_eq]
            intro hh
            exact h (hh ▸ hmem))]
        rw [h3, List.append_nil]
      · have h4 : List.filter (fun x => decide (key x = key a)) l = [] := by
          rw [List.filter_eq_nil_iff]
          intro x hx
          simp only [decide_eq_true_eq]
          intro hh
          exact h (hh ▸ List.mem_map_of_mem key hx)
        rw [List.filter_append, h4]
        simp [List.filter_cons]

theorem groupByKey_keys {α : Type} (key : α → String) (l : List α) :
    (groupByKey key l).map Prod.fst = firstDedup (l.map key) := by
  rw [groupByKey_eq, List.map_map]
  exact List.map_id _

theorem groupByKey_mem {α : Type} (key : α → String) (l : List α)
    (g : String × List α) (hg : g ∈ groupByKey key l) :
    g.2 = l.filter (fun x => key x = g.1) ∧ g.2 ≠ [] ∧ g.1 ∈ l.map key := by
  rw [groupByKey_eq] at hg
  rcases List.mem_map.mp hg with ⟨k, hk, hgk⟩
  subst hgk
  have hmem : k ∈ l.map key := (mem_firstDedup _ _).mp hk
  refine ⟨rfl, ?_, hmem⟩
  rcases List.mem_map.mp hmem with ⟨x, hx, hkx⟩
  intro hnil
  have hmem2 : x ∈ List.filter (fun x => decide (key x = k)) l :=
    List.mem_filter.mpr ⟨hx, by simp [hkx]⟩
  have hnil2 : List.filter (fun x => decide (key x = k)) l = [] := hnil
  rw [hnil2] at hmem2
  simp at hmem2

/-! ## Lemmas about the guarded method-map inserts -/

theorem findField_isSome_iff_mem (fs : List (String × Json)) (k : String) :
    (findField fs k).isSome ↔ k ∈ fs.map Prod.fst := by
  induction fs with
  | nil => simp [findField]
  | cons e fs ih =>
    obtain ⟨k1, v1⟩ := e
    by_cases h : k1 = k
    · simp [findField_cons, h]
    · rw [findField_cons, if_neg h, List.map_cons, ih]
      constructor
      · exact fun hm => List.mem_cons_of_mem _ hm
      · intro hm
        rcases List.mem_cons.mp hm with h1 | h1
        · exact absurd h1.symm h
        · exact h1

theorem insertIfAbsent_keys_nodup (m : List (String × Json)) (kv : String × Json)
    (hm : (m.map Prod.fst).Nodup) :
    ((insertIfAbsent m kv).map Prod.fst).Nodup := by
  rw [insertIfAbsent]
  by_cases h : (findField m kv.1).isSome
  · rw [if_pos h]; exact hm
  · rw [if_neg h, List.map_append, List.map_singleton]
    refine List.nodup_append.mpr ⟨hm, List.nodup_singleton _, ?_⟩
    intro a ha hb
    rw [List.mem_singleton.mp hb] at ha
    exact h ((findField_isSome_iff_mem m kv.1).mpr ha)

theorem foldl_insertIfAbsent_keys_nodup (fs : List (String × Json)) :
    ∀ m, (m.map Prod.fst).Nodup → ((fs.foldl insertIfAbsent m).map Prod.fst).Nodup := by
  induction fs with
  | nil => intro m hm; exact hm
  | cons e fs ih =>
    intro m hm
    rw [List.foldl_cons]
    exact ih _ (insertIfAbsent_keys_nodup m e hm)

theorem mergeVerbList_keys_nodup (entries : List (String × Json)) :
    ((mergeVerbList entries).map Prod.fst).Nodup := by
  rw [mergeVerbList]
  have hgen : ∀ m : List (String × Json), (m.map Prod.fst).Nodup →
      ((entries.foldl
        (fun m e => match e.2 with
          | .obj fs => fs.foldl insertIfAbsent m
          | _ => m) m).map Prod.fst).Nodup := by
    induction entries with
    | nil => intro m hm; exact hm
    | cons e es ih =>
      intro m hm
      rw [List.foldl_cons]
      cases e.2 <;> first
        | exact ih _ hm
        | exact ih _ (foldl_insertIfAbsent_keys_nodup _ m hm)
  exact hgen [] (by simp)

theorem foldl_insertIfAbsent_disjoint (fs : List (String × Json)) :
    ∀ m, (∀ k ∈ fs.map Prod.fst, findField m k = none) →
      (fs.map Prod.fst).Nodup → fs.foldl insertIfAbsent m = m ++ fs := by
  induction fs with
  | nil => intro m _ _; simp
  | cons e fs ih =>
    intro m hdisj hnd
    have he : findField m e.1 = none := hdisj e.1 (by simp)
    rw [List.foldl_cons, insertIfAbsent, he]
    simp only [Option.isSome_none, Bool.false_eq_true, if_false]
    have hkeys : (fs.map Prod.fst).Nodup := (List.nodup_cons.mp (by simpa using hnd)).2
    have hknotin : e.1 ∉ fs.map Prod.fst := (List.nodup_cons.mp (by simpa using hnd)).1
    rw [ih (m ++ [e]) ?_ hkeys]
    · simp
    · intro k hk
      rw [findField_append, hdisj k (by simp [hk])]
      rw [findField_cons, if_neg (fun hh : e.1 = k => hknotin (hh ▸ hk))]
      rfl

theorem mergeVerbList_singleton_obj (p : String) (fs : List (String × Json))
    (h : (fs.map Prod.fst).Nodup) :
    mergeVerbList [(p, Json.obj fs)] = fs := by
  show fs.foldl insertIfAbsent [] = fs
  rw [foldl_insertIfAbsent_disjoint fs [] (fun k _ => rfl) h]
  rfl

/-! ## Lemmas about fragment extraction from the split stage -/

theorem filterMap_some_eq_map {α β : Type} (l : List α) (f : α → β) :
    l.filterMap (fun a => some (f a)) = l.map f := by
  rw [show (fun a => some (f a)) = some ∘ f from rfl, List.filterMap_eq_map]

theorem filterMap_flatMap_eq {α β γ : Type} (l : List α) (f : α → List β) (g : β → Option γ) :
    (l.flatMap f).filterMap g = l.flatMap (fun a => (f a).filterMap g) := by
  induction l with
  | nil => rfl
  | cons a l ih => simp [List.flatMap_cons, List.filterMap_append, ih]

theorem flatMap_singleton_eq_map {α β : Type} (l : List α) (f : α → β) :
    l.flatMap (fun a => [f a]) = l.map f := by
  induction l with
  | nil => rfl
  | cons a l ih => simp [List.flatMap_cons, ih]

theorem split_eq_of_paths (d : Json) (pf : List (String × Json))
    (h : d.get? "paths" = some (Json.obj pf)) :
    split_definition_parallel d =
      (groupByKey (fun e => normalize_path e.1) pf).flatMap
        (fun g => process_path_group d g.1 g.2) := by
  simp only [split_definition_parallel, h]

theorem pathFrags_process_path_group (d : Json) (gkey : String)
    (entries : List (String × Json)) :
    pathFragsOf (process_path_group d gkey entries) =
      [⟨gkey, create_path_yaml d gkey (merge_path_data entries)⟩] := by
  rw [pathFragsOf, process_path_group, List.filterMap_cons]
  cases merge_path_data entries <;>
    simp [asPath, List.filterMap_map, Function.comp_def]

theorem verbFrags_process_path_group (d : Json) (gkey : String)
    (entries : List (String × Json)) :
    verbFragsOf (process_path_group d gkey entries) =
      (objFields (merge_path_data entries)).map
        (fun f => ⟨upperVerb f.1, gkey, get_root_path gkey,
          create_verb_yaml d gkey f.1 f.2⟩) := by
  rw [verbFragsOf, process_path_group, List.filterMap_cons]
  cases merge_path_data entries <;>
    simp [asVerb, objFields, List.filterMap_map, Function.comp_def, filterMap_some_eq_map]

theorem flatMap_map_eq {α β γ : Type} (l : List α) (f : α → β) (g : β → List γ) :
    (l.map f).flatMap g = l.flatMap (fun a => g (f a)) := by
  induction l with
  | nil => rfl
  | cons a l ih => simp [List.flatMap_cons, ih]

theorem nodup_flatMap_pairs (ks : List String) (M : String → List String)
    (hks : ks.Nodup) (hM : ∀ k ∈ ks, (M k).Nodup) :
    (ks.flatMap (fun k => (M k).map (fun m => (k, m)))).Nodup := by
  induction ks with
  | nil => simp
  | cons k ks ih =>
    rw [List.flatMap_cons]
    have hkk : k ∉ ks := (List.nodup_cons.mp hks).1
    refine List.nodup_append.mpr ⟨?_, ?_, ?_⟩
    · refine List.Nodup.map ?_ (hM k (by simp))
      intro a b hab
      exact (Prod.mk.injEq _ _ _ _).mp hab |>.2
    · exact ih (List.nodup_cons.mp hks).2 (fun k2 hk2 => hM k2 (List.mem_cons_of_mem _ hk2))
    · intro a ha hb
      rcases List.mem_map.mp ha with ⟨m, _, hma⟩
      rcases List.mem_flatMap.mp hb with ⟨k2, hk2, hak2⟩
      rcases List.mem_map.mp hak2 with ⟨m2, _, hm2a⟩
      have h1 : a.1 = k := by rw [← hma]
      have h2 : a.1 = k2 := by rw [← hm2a]
      exact hkk (h1 ▸ h2 ▸ hk2)

theorem mergedFields_keys_nodup (pf : List (String × Json))
    (hwf : ∀ e ∈ pf, valKeysNodupB e.2 = true)
    (entries : List (String × Json)) (hsub : ∀ e ∈ entries, e ∈ pf) :
    ((objFields (merge_path_data entries)).map Prod.fst).Nodup := by
  match entries with
  | [] => simp [merge_path_data, mergeVerbList, objFields]
  | [e] =>
    have he := hwf e (hsub e (by simp))
    show ((objFields e.2).map Prod.fst).Nodup
    cases hv : e.2 <;> simp [objFields]
    case obj fs =>
      rw [hv] at he
      exact of_decide_eq_true he
  | e1 :: e2 :: rest =>
    show ((mergeVerbList (e1 :: e2 :: rest)).map Prod.fst).Nodup
    exact mergeVerbList_keys_nodup _

theorem routePairs_nodup (pf : List (String × Json))
    (hwf : ∀ e ∈ pf, valKeysNodupB e.2 = true) :
    (routePairs pf).Nodup := by
  rw [routePairs, groupByKey_eq, flatMap_map_eq]
  have hrw : (fun k => (objFields
        (merge_path_data (pf.filter (fun x => normalize_path x.1 = k)))).map
          (fun f => (k, f.1)))
      = (fun k => ((objFields
        (merge_path_data (pf.filter (fun x => normalize_path x.1 = k)))).map
          Prod.fst).map (fun m => (k, m))) := by
    funext k
    rw [List.map_map]
    rfl
  rw [hrw]
  refine nodup_flatMap_pairs _ _ (nodup_firstDedup _) ?_
  intro k _
  refine mergedFields_keys_nodup pf hwf _ ?_
  intro e he
  exact (List.mem_filter.mp he).1

/-! ## Claim C4: structure of the split stage on well-shaped documents -/

/-- C4 (counterexample): a canonical group holding a single route whose
value is not an object keeps that raw value as the emitted path fragment's
body instead of the (empty) first-seen-wins union of the group's method
maps: on `{"paths": {"/x": "foo"}}` the split emits one path fragment
whose `"paths"` entry is the string `"foo"`, not the empty object. -/
theorem c4_singleton_nonobject_cex :
    split_definition_parallel (Json.obj [("paths", Json.obj [("/x", Json.str "foo")])])
      = [APIDef.path ⟨"/x", Json.obj [("paths", Json.obj [("/x", Json.str "foo")])]⟩]
    ∧ Json.obj (mergeVerbList [("/x", Json.str "foo")]) = Json.obj []
    ∧ Json.str "foo" ≠ Json.obj [] :=
  ⟨rfl, rfl, fun h => Json.noConfusion h⟩

/-- C4 (amended): for every document whose `"paths"` member is an object
binding each route key once and whose route values bind each method once,
the split stage groups routes by canonical path and emits, per group,
exactly one path fragment (carrying the group key and the merged body) —
the path fragments enumerate the distinct canonical paths in processing
order — plus exactly one operation fragment per method of the merged
method map, so that the operation fragments enumerate the distinct
(canonical path, method) pairs surviving intra-route merging, without
duplicates, and their number equals the number of those pairs.  The merged
body is the first-seen-wins union of the group's method maps, except that
a single-route group keeps its raw route value unchanged — which differs
from the union exactly when that value is not an object. -/
theorem c4_split_structure (d : Json) (pf : List (String × Json))
    (hp : d.get? "paths" = some (Json.obj pf))
    (hwf : ∀ e ∈ pf, valKeysNodupB e.2 = true) :
    (pathFragsOf (split_definition_parallel d)
        = (groupByKey (fun e => normalize_path e.1) pf).map
            (fun g => ⟨g.1, create_path_yaml d g.1 (merge_path_data g.2)⟩))
    ∧ ((pathFragsOf (split_definition_parallel d)).map APIPath.path
        = firstDedup (pf.map (fun e => normalize_path e.1)))
    ∧ (verbKeyList (split_definition_parallel d)
        = (routePairs pf).map (fun q => (q.1, upperVerb q.2)))
    ∧ (routePairs pf).Nodup
    ∧ ((verbFragsOf (split_definition_parallel d)).length = (routePairs pf).length)
    ∧ (∀ g ∈ groupByKey (fun e => normalize_path e.1) pf,
        merge_path_data g.2 = Json.obj (mergeVerbList g.2)
        ∨ ∃ p v, g.2 = [(p, v)] ∧ merge_path_data g.2 = v ∧ ∀ fs, v ≠ Json.obj fs) := by
  have h1 : pathFragsOf (split_definition_parallel d)
      = (groupByKey (fun e => normalize_path e.1) pf).map
          (fun g => ⟨g.1, create_path_yaml d g.1 (merge_path_data g.2)⟩) := by
    rw [split_eq_of_paths d pf hp, pathFragsOf, filterMap_flatMap_eq]
    have hpt : ∀ g : String × List (String × Json),
        (process_path_group d g.1 g.2).filterMap asPath =
          [(⟨g.1, create_path_yaml d g.1 (merge_path_data g.2)⟩ : APIPath)] :=
      fun g => pathFrags_process_path_group d g.1 g.2
    calc (groupByKey (fun e => normalize_path e.1) pf).flatMap
          (fun g => (process_path_group d g.1 g.2).filterMap asPath)
        = (groupByKey (fun e => normalize_path e.1) pf).flatMap
            (fun g => [(⟨g.1, create_path_yaml d g.1 (merge_path_data g.2)⟩ : APIPath)]) := by
          exact List.flatMap_congr (fun g _ => hpt g)
      _ = _ := flatMap_singleton_eq_map _ _
  have h3 : verbKeyList (split_definition_parallel d)
      = (routePairs pf).map (fun q => (q.1, upperVerb q.2)) := by
    rw [verbKeyList, verbFragsOf, split_eq_of_paths d pf hp, filterMap_flatMap_eq,
      routePairs, List.map_flatMap, List.map_flatMap]
    refine List.flatMap_congr ?_
    intro g _
    rw [show (process_path_group d g.1 g.2).filterMap asVerb
        = verbFragsOf (process_path_group d g.1 g.2) from rfl,
      verbFrags_process_path_group, List.map_map, List.map_map]
    rfl
  have h5 : (verbFragsOf (split_definition_parallel d)).length = (routePairs pf).length := by
    have hl := congrArg List.length h3
    rw [verbKeyList, List.length_map, List.length_map] at hl
    exact hl
  refine ⟨h1, ?_, h3, routePairs_nodup pf hwf, h5, ?_⟩
  · rw [h1, List.map_map]
    have hcomp : (APIPath.path ∘ fun g : String × List (String × Json) =>
        (⟨g.1, create_path_yaml d g.1 (merge_path_data g.2)⟩ : APIPath)) = Prod.fst := rfl
    rw [hcomp, groupByKey_keys]
  · intro g hg
    rcases groupByKey_mem _ _ g hg with ⟨hfilter, hne, -⟩
    rcases hshape : g.2 with - | ⟨e, tail⟩
    · exact absurd hshape hne
    · rcases htail : tail with - | ⟨e2, rest⟩
      · subst htail
        have hepf : e ∈ pf := by
          have hmem : e ∈ g.2 := by rw [hshape]; exact List.mem_singleton.mpr rfl
          rw [hfilter] at hmem
          exact (List.mem_filter.mp hmem).1
        cases hv : e.2
        case obj fs =>
          left
          have hnd : (fs.map Prod.fst).Nodup := by
            have hh := hwf e hepf
            rw [hv] at hh
            exact of_decide_eq_true hh
          show merge_path_data [e] = Json.obj (mergeVerbList [e])
          have he2 : e = (e.1, Json.obj fs) := by rw [← hv]
          rw [he2, show merge_path_data [(e.1, Json.obj fs)] = Json.obj fs from rfl,
            mergeVerbList_singleton_obj _ _ hnd]
        all_goals {
          right
          refine ⟨e.1, e.2, ?_, ?_, ?_⟩
          · rfl
          · rfl
          · intro fs hfs
            rw [hv] at hfs
            exact Json.noConfusion hfs }
      · left
        rfl

/-- C4 (witness): the amended split-structure theorem applied to a
two-route document whose routes share the canonical path `"/users"`. -/
theorem c4_split_structure_witness :
    (verbFragsOf (split_definition_parallel (Json.obj [("paths", Json.obj
        [("/api/v1/users", Json.obj [("get", Json.null)]),
         ("/v2/users", Json.obj [("get", Json.bool true), ("post", Json.null)])])]))).length
      = (routePairs
        [("/api/v1/users", Json.obj [("get", Json.null)]),
         ("/v2/users", Json.obj [("get", Json.bool true), ("post", Json.null)])]).length := by
  have h := c4_split_structure
    (Json.obj [("paths", Json.obj
      [("/api/v1/users", Json.obj [("get", Json.null)]),
       ("/v2/users", Json.obj [("get", Json.bool true), ("post", Json.null)])])])
    [("/api/v1/users", Json.obj [("get", Json.null)]),
     ("/v2/users", Json.obj [("get", Json.bool true), ("post", Json.null)])]
    rfl (by decide)
  exact h.2.2.2.2.1

/-! ## Lemmas about the merge conflict step -/

theorem setField_cons (k1 : String) (v1 : Json) (rest : List (String × Json))
    (k : String) (v : Json) :
    setField ((k1, v1) :: rest) k v =
      if k1 = k then (k1, v) :: rest else (k1, v1) :: setField rest k v := rfl

theorem setField_findField_self (fs : List (String × Json)) (k : String) (v w : Json)
    (h : findField fs k = some w) :
    findField (setField fs k v) k = some v := by
  induction fs with
  | nil => exact absurd h (by simp [findField])
  | cons e fs ih =>
    obtain ⟨k1, v1⟩ := e
    by_cases hk : k1 = k
    · rw [setField_cons, if_pos hk, findField_cons, if_pos hk]
    · rw [findField_cons, if_neg hk] at h
      rw [setField_cons, if_neg hk, findField_cons, if_neg hk]
      exact ih h

theorem setField_findField_ne (fs : List (String × Json)) (k k2 : String) (v : Json)
    (h : k2 ≠ k) :
    findField (setField fs k v) k2 = findField fs k2 := by
  induction fs with
  | nil => rfl
  | cons e fs ih =>
    obtain ⟨k1, v1⟩ := e
    by_cases hk : k1 = k
    · have h1 : ¬ k1 = k2 := fun hh => h (hh.symm.trans hk)
      rw [setField_cons, if_pos hk, findField_cons, if_neg h1, findField_cons, if_neg h1]
    · rw [setField_cons, if_neg hk, findField_cons, findField_cons]
      by_cases h2 : k1 = k2
      · rw [if_pos h2, if_pos h2]
      · rw [if_neg h2, if_neg h2, ih]

theorem setField_setField (fs : List (String × Json)) (k : String) (v w : Json) :
    setField (setField fs k v) k w = setField fs k w := by
  induction fs with
  | nil => rfl
  | cons e fs ih =>
    obtain ⟨k1, v1⟩ := e
    by_cases hk : k1 = k
    · simp [setField_cons, hk]
    · simp [setField_cons, hk, ih]

theorem setField_self (fs : List (String × Json)) (k : String) (v : Json)
    (h : findField fs k = some v) :
    setField fs k v = fs := by
  induction fs with
  | nil => rfl
  | cons e fs ih =>
    obtain ⟨k1, v1⟩ := e
    by_cases hk : k1 = k
    · rw [findField_cons, if_pos hk] at h
      rw [setField_cons, if_pos hk, Option.some.inj h]
    · rw [findField_cons, if_neg hk] at h
      rw [setField_cons, if_neg hk, ih h]

theorem ins_lookup (pf : List (String × Json)) :
    ∀ mf k, findField (pf.foldl insertIfAbsent mf) k =
      match findField mf k with
      | some v => some v
      | none => findField pf k := by
  induction pf with
  | nil =>
    intro mf k
    show findField mf k = match findField mf k with
      | some v => some v
      | none => findField ([] : List (String × Json)) k
    cases findField mf k <;> rfl
  | cons e pf ih =>
    obtain ⟨k1, v1⟩ := e
    intro mf k
    rw [List.foldl_cons, ih]
    by_cases hm : (findField mf k1).isSome
    · rw [show insertIfAbsent mf (k1, v1) = mf from by rw [insertIfAbsent, if_pos hm]]
      cases hmk : findField mf k with
      | some v => rfl
      | none =>
        have hek : ¬ k1 = k := by
          intro hh
          rw [hh, hmk] at hm
          simp at hm
        show findField pf k = findField ((k1, v1) :: pf) k
        rw [findField_cons, if_neg hek]
    · rw [show insertIfAbsent mf (k1, v1) = mf ++ [(k1, v1)] from by
        rw [insertIfAbsent, if_neg hm]]
      rw [findField_append]
      cases hmk : findField mf k with
      | some v => rfl
      | none =>
        rw [findField_cons]
        by_cases hek : k1 = k
        · rw [if_pos hek, findField_cons, if_pos hek]
        · rw [if_neg hek, findField_cons, if_neg hek]
          rfl

theorem hasPathsObj_shape (j : Json) (h : hasPathsObjB j = true) :
    ∃ jf jpf, j = Json.obj jf ∧ findField jf "paths" = some (Json.obj jpf) := by
  cases j with
  | obj fs =>
    have h2 : (match findField fs "paths" with
        | some (Json.obj _) => true
        | _ => false) = true := h
    cases hp : findField fs "paths" with
    | none =>
      rw [hp] at h2
      exact Bool.noConfusion h2
    | some v =>
      rw [hp] at h2
      cases v <;> try exact Bool.noConfusion h2
      case obj pfs => exact ⟨fs, pfs, rfl, hp⟩
  | null => exact Bool.noConfusion h
  | bool b => exact Bool.noConfusion h
  | num n => exact Bool.noConfusion h
  | str t => exact Bool.noConfusion h
  | arr xs => exact Bool.noConfusion h

theorem mergeInto_m_nonobj (m y : Json) (h : ∀ mf, m ≠ Json.obj mf) :
    mergeIntoPathsObj m y = m := by
  cases hy : y.get? "paths" with
  | none => cases m <;> first
    | exact absurd rfl (h _)
    | simp [mergeIntoPathsObj, hy]
  | some po => cases po <;> cases m <;> first
    | exact absurd rfl (h _)
    | simp [mergeIntoPathsObj, hy]

theorem mergeInto_y_nopaths (m y : Json) (h : ∀ pfp, y.get? "paths" ≠ some (Json.obj pfp)) :
    mergeIntoPathsObj m y = m := by
  cases hy : y.get? "paths" with
  | none => cases m <;> simp [mergeIntoPathsObj, hy]
  | some po => cases po <;> cases m <;> first
    | exact absurd hy (h _)
    | simp [mergeIntoPathsObj, hy]

theorem mergeInto_m_nopathsobj (mf : List (String × Json)) (y : Json)
    (h : ∀ mfp, findField mf "paths" ≠ some (Json.obj mfp)) :
    mergeIntoPathsObj (Json.obj mf) y = Json.obj mf := by
  cases hy : y.get? "paths" with
  | none => simp [mergeIntoPathsObj, hy]
  | some po =>
    cases po with
    | obj pfp =>
      cases hm : findField mf "paths" with
      | none => simp [mergeIntoPathsObj, hy, hm]
      | some w =>
        cases w <;> first
          | exact absurd hm (h _)
          | simp [mergeIntoPathsObj, hy, hm]
    | null => simp [mergeIntoPathsObj, hy]
    | bool b => simp [mergeIntoPathsObj, hy]
    | num n => simp [mergeIntoPathsObj, hy]
    | str t => simp [mergeIntoPathsObj, hy]
    | arr xs => simp [mergeIntoPathsObj, hy]

theorem mergeInto_apply (mf : List (String × Json)) (mfp : List (String × Json))
    (y : Json) (pfp : List (String × Json))
    (hm : findField mf "paths" = some (Json.obj mfp))
    (hy : y.get? "paths" = some (Json.obj pfp)) :
    mergeIntoPathsObj (Json.obj mf) y =
      Json.obj (setField mf "paths" (Json.obj (pfp.foldl insertIfAbsent mfp))) := by
  simp [mergeIntoPathsObj, hy, hm]

theorem insAll_star (A B : List (String × Json)) (e : String × Json) :
    (insertIfAbsent B e).foldl insertIfAbsent A =
      insertIfAbsent (B.foldl insertIfAbsent A) e := by
  by_cases h : (findField B e.1).isSome
  · rw [show insertIfAbsent B e = B from by rw [insertIfAbsent, if_pos h]]
    have h2 : (findField (B.foldl insertIfAbsent A) e.1).isSome := by
      rw [ins_lookup]
      cases hA : findField A e.1
      · simpa using h
      · simp
    rw [show insertIfAbsent (B.foldl insertIfAbsent A) e = B.foldl insertIfAbsent A from by
      rw [insertIfAbsent, if_pos h2]]
  · rw [show insertIfAbsent B e = B ++ [e] from by rw [insertIfAbsent, if_neg h],
      List.foldl_append]
    rfl

theorem insAll_assoc (zpf : List (String × Json)) :
    ∀ A ypf : List (String × Json),
      (zpf.foldl insertIfAbsent ypf).foldl insertIfAbsent A
        = zpf.foldl insertIfAbsent (ypf.foldl insertIfAbsent A) := by
  induction zpf with
  | nil => intro A ypf; rfl
  | cons e zpf ih =>
    intro A ypf
    rw [List.foldl_cons, ih A (insertIfAbsent ypf e), insAll_star, List.foldl_cons]

theorem hasPathsObjB_obj (fs X : List (String × Json))
    (h : findField fs "paths" = some (Json.obj X)) :
    hasPathsObjB (Json.obj fs) = true := by
  show (match findField fs "paths" with
    | some (Json.obj _) => true
    | _ => false) = true
  rw [h]

theorem mergeInto_assoc (m y z : Json) (hy : hasPathsObjB y = true) :
    mergeIntoPathsObj (mergeIntoPathsObj m y) z
      = mergeIntoPathsObj m (mergeIntoPathsObj y z) := by
  obtain ⟨yf, ypf, hyeq, hypaths⟩ := hasPathsObj_shape y hy
  subst hyeq
  cases m with
  | obj mf =>
    cases hmp : findField mf "paths" with
    | none =>
      have hmn : ∀ mfp, findField mf "paths" ≠ some (Json.obj mfp) := by
        intro mfp hc
        rw [hmp] at hc
        exact Option.noConfusion hc
      rw [mergeInto_m_nopathsobj mf _ hmn, mergeInto_m_nopathsobj mf _ hmn,
        mergeInto_m_nopathsobj mf _ hmn]
    | some w =>
      cases w with
      | obj mfp =>
        rw [mergeInto_apply mf mfp (Json.obj yf) ypf hmp hypaths]
        cases hz : z.get? "paths" with
        | none =>
          have hzn : ∀ pfp, z.get? "paths" ≠ some (Json.obj pfp) := by
            intro pfp hc
            rw [hz] at hc
            exact Option.noConfusion hc
          rw [mergeInto_y_nopaths _ z hzn, mergeInto_y_nopaths _ z hzn,
            mergeInto_apply mf mfp (Json.obj yf) ypf hmp hypaths]
        | some po =>
          cases po with
          | obj zpf =>
            have hm1 : findField (setField mf "paths"
                  (Json.obj (ypf.foldl insertIfAbsent mfp))) "paths"
                = some (Json.obj (ypf.foldl insertIfAbsent mfp)) :=
              setField_findField_self mf "paths" _ _ hmp
            rw [mergeInto_apply _ _ z zpf hm1 hz, setField_setField,
              mergeInto_apply yf ypf z zpf hypaths hz]
            have hy1 : findField (setField yf "paths"
                  (Json.obj (zpf.foldl insertIfAbsent ypf))) "paths"
                = some (Json.obj (zpf.foldl insertIfAbsent ypf)) :=
              setField_findField_self yf "paths" _ _ hypaths
            rw [mergeInto_apply mf mfp
              (Json.obj (setField yf "paths" (Json.obj (zpf.foldl insertIfAbsent ypf))))
              (zpf.foldl insertIfAbsent ypf) hmp hy1, insAll_assoc]
          | null =>
            have hzn : ∀ pfp, z.get? "paths" ≠ some (Json.obj pfp) := by
              intro pfp hc
              rw [hz] at hc
              exact Json.noConfusion (Option.some.inj hc)
            rw [mergeInto_y_nopaths _ z hzn, mergeInto_y_nopaths _ z hzn,
              mergeInto_apply mf mfp (Json.obj yf) ypf hmp hypaths]
          | bool b =>
            have hzn : ∀ pfp, z.get? "paths" ≠ some (Json.obj pfp) := by
              intro pfp hc
              rw [hz] at hc
              exact Json.noConfusion (Option.some.inj hc)
            rw [mergeInto_y_nopaths _ z hzn, mergeInto_y_nopaths _ z hzn,
              mergeInto_apply mf mfp (Json.obj yf) ypf hmp hypaths]
          | num n =>
            have hzn : ∀ pfp, z.get? "paths" ≠ some (Json.obj pfp) := by
              intro pfp hc
              rw [hz] at hc
              exact Json.noConfusion (Option.some.inj hc)
            rw [mergeInto_y_nopaths _ z hzn, mergeInto_y_nopaths _ z hzn,
              mergeInto_apply mf mfp (Json.obj yf) ypf hmp hypaths]
          | str t =>
            have hzn : ∀ pfp, z.get? "paths" ≠ some (Json.obj pfp) := by
              intro pfp hc
              rw [hz] at hc
              exact Json.noConfusion (Option.some.inj hc)
            rw [mergeInto_y_nopaths _ z hzn, mergeInto_y_nopaths _ z hzn,
              mergeInto_apply mf mfp (Json.obj yf) ypf hmp hypaths]
          | arr xs =>
            have hzn : ∀ pfp, z.get? "paths" ≠ some (Json.obj pfp) := by
              intro pfp hc
              rw [hz] at hc
              exact Json.noConfusion (Option.some.inj hc)
            rw [mergeInto_y_nopaths _ z hzn, mergeInto_y_nopaths _ z hzn,
              mergeInto_apply mf mfp (Json.obj yf) ypf hmp hypaths]
      | null =>
        have hmn : ∀ mfp, findField mf "paths" ≠ some (Json.obj mfp) := by
          intro mfp hc
          rw [hmp] at hc
          exact Json.noConfusion (Option.some.inj hc)
        rw [mergeInto_m_nopathsobj mf _ hmn, mergeInto_m_nopathsobj mf _ hmn,
          mergeInto_m_nopathsobj mf _ hmn]
      | bool b =>
        have hmn : ∀ mfp, findField mf "paths" ≠ some (Json.obj mfp) := by
          intro mfp hc
          rw [hmp] at hc
          exact Json.noConfusion (Option.some.inj hc)
        rw [mergeInto_m_nopathsobj mf _ hmn, mergeInto_m_nopathsobj mf _ hmn,
          mergeInto_m_nopathsobj mf _ hmn]
      | num n =>
        have hmn : ∀ mfp, findField mf "paths" ≠ some (Json.obj mfp) := by
          intro mfp hc
          rw [hmp] at hc
          exact Json.noConfusion (Option.some.inj hc)
        rw [mergeInto_m_nopathsobj mf _ hmn, mergeInto_m_nopathsobj mf _ hmn,
          mergeInto_m_nopathsobj mf _ hmn]
      | str t =>
        have hmn : ∀ mfp, findField mf "paths" ≠ some (Json.obj mfp) := by
          intro mfp hc
          rw [hmp] at hc
          exact Json.noConfusion (Option.some.inj hc)
        rw [mergeInto_m_nopathsobj mf _ hmn, mergeInto_m_nopathsobj mf _ hmn,
          mergeInto_m_nopathsobj mf _ hmn]
      | arr xs =>
        have hmn : ∀ mfp, findField mf "paths" ≠ some (Json.obj mfp) := by
          intro mfp hc
          rw [hmp] at hc
          exact Json.noConfusion (Option.some.inj hc)
        rw [mergeInto_m_nopathsobj mf _ hmn, mergeInto_m_nopathsobj mf _ hmn,
          mergeInto_m_nopathsobj mf _ hmn]
  | null =>
    have hmn : ∀ mf2, Json.null ≠ Json.obj mf2 := fun _ hc => Json.noConfusion hc
    rw [mergeInto_m_nonobj _ _ hmn, mergeInto_m_nonobj _ _ hmn, mergeInto_m_nonobj _ _ hmn]
  | bool b =>
    have hmn : ∀ mf2, Json.bool b ≠ Json.obj mf2 := fun _ hc => Json.noConfusion hc
    rw [mergeInto_m_nonobj _ _ hmn, mergeInto_m_nonobj _ _ hmn, mergeInto_m_nonobj _ _ hmn]
  | num n =>
    have hmn : ∀ mf2, Json.num n ≠ Json.obj mf2 := fun _ hc => Json.noConfusion hc
    rw [mergeInto_m_nonobj _ _ hmn, mergeInto_m_nonobj _ _ hmn, mergeInto_m_nonobj _ _ hmn]
  | str t =>
    have hmn : ∀ mf2, Json.str t ≠ Json.obj mf2 := fun _ hc => Json.noConfusion hc
    rw [mergeInto_m_nonobj _ _ hmn, mergeInto_m_nonobj _ _ hmn, mergeInto_m_nonobj _ _ hmn]
  | arr xs =>
    have hmn : ∀ mf2, Json.arr xs ≠ Json.obj mf2 := fun _ hc => Json.noConfusion hc
    rw [mergeInto_m_nonobj _ _ hmn, mergeInto_m_nonobj _ _ hmn, mergeInto_m_nonobj _ _ hmn]

theorem foldStep_some (ys : List Json) :
    ∀ m, ys.foldl
        (fun acc y => match acc with
          | none => some y
          | some m => some (mergeIntoPathsObj m y)) (some m)
      = some (ys.foldl mergeIntoPathsObj m) := by
  induction ys with
  | nil => intro m; rfl
  | cons y ys ih => intro m; rw [List.foldl_cons, List.foldl_cons]; exact ih _

theorem foldMergeOpt_cons (y : Json) (ys : List Json) :
    foldMergeOpt (y :: ys) = some (ys.foldl mergeIntoPathsObj y) := by
  rw [foldMergeOpt, List.foldl_cons]
  exact foldStep_some ys y

theorem mergeInto_WF (m y : Json) (hm : hasPathsObjB m = true) :
    hasPathsObjB (mergeIntoPathsObj m y) = true := by
  obtain ⟨mf, mfp, hmeq, hmp⟩ := hasPathsObj_shape m hm
  subst hmeq
  cases hz : y.get? "paths" with
  | none =>
    rw [mergeInto_y_nopaths _ y (fun pfp hc => Option.noConfusion (hz ▸ hc))]
    exact hm
  | some po =>
    cases po with
    | obj pfp =>
      rw [mergeInto_apply mf mfp y pfp hmp hz]
      exact hasPathsObjB_obj _ _ (setField_findField_self mf "paths" _ _ hmp)
    | null =>
      rw [mergeInto_y_nopaths _ y (fun pfp hc =>
        Json.noConfusion (Option.some.inj (hz ▸ hc)))]
      exact hm
    | bool b =>
      rw [mergeInto_y_nopaths _ y (fun pfp hc =>
        Json.noConfusion (Option.some.inj (hz ▸ hc)))]
      exact hm
    | num n =>
      rw [mergeInto_y_nopaths _ y (fun pfp hc =>
        Json.noConfusion (Option.some.inj (hz ▸ hc)))]
      exact hm
    | str t =>
      rw [mergeInto_y_nopaths _ y (fun pfp hc =>
        Json.noConfusion (Option.some.inj (hz ▸ hc)))]
      exact hm
    | arr xs =>
      rw [mergeInto_y_nopaths _ y (fun pfp hc =>
        Json.noConfusion (Option.some.inj (hz ▸ hc)))]
      exact hm

theorem foldl_merge_WF (ys : List Json) :
    ∀ m, hasPathsObjB m = true → hasPathsObjB (ys.foldl mergeIntoPathsObj m) = true := by
  induction ys with
  | nil => intro m hm; exact hm
  | cons y ys ih =>
    intro m hm
    rw [List.foldl_cons]
    exact ih _ (mergeInto_WF m y hm)

theorem foldl_merge_pull (zs : List Json) :
    ∀ m z, hasPathsObjB z = true → (∀ u ∈ zs, hasPathsObjB u = true) →
      zs.foldl mergeIntoPathsObj (mergeIntoPathsObj m z)
        = mergeIntoPathsObj m (zs.foldl mergeIntoPathsObj z) := by
  induction zs with
  | nil => intro m z _ _; rfl
  | cons e zs ih =>
    intro m z hz hall
    rw [List.foldl_cons, List.foldl_cons, mergeInto_assoc m z e hz]
    exact ih m (mergeIntoPathsObj z e) (mergeInto_WF z e hz)
      (fun u hu => hall u (List.mem_cons_of_mem _ hu))

theorem foldMergeOpt_append (ys zs : List Json)
    (hzs : ∀ z ∈ zs, hasPathsObjB z = true) :
    foldMergeOpt (ys ++ zs) = combineO (foldMergeOpt ys) (foldMergeOpt zs) := by
  cases ys with
  | nil => rw [List.nil_append]; rfl
  | cons y ys =>
    rw [List.cons_append, foldMergeOpt_cons, foldMergeOpt_cons, List.foldl_append]
    cases zs with
    | nil => rfl
    | cons z zs =>
      rw [foldMergeOpt_cons]
      show some ((z :: zs).foldl mergeIntoPathsObj (ys.foldl mergeIntoPathsObj y))
        = some (mergeIntoPathsObj (ys.foldl mergeIntoPathsObj y)
            (zs.foldl mergeIntoPathsObj z))
      rw [List.foldl_cons]
      rw [foldl_merge_pull zs _ z (hzs z (by simp))
        (fun u hu => hzs u (List.mem_cons_of_mem _ hu))]

/-! ## Characterization of the merge stage -/

theorem filter_path_eq (l : List APIDef) :
    l.filter defIsPath = (pathFragsOf l).map APIDef.path := by
  induction l with
  | nil => rfl
  | cons d l ih =>
    cases d with
    | path p => exact congrArg (List.cons (APIDef.path p)) ih
    | verb v => exact ih

theorem filter_not_path_eq (l : List APIDef) :
    l.filter (fun d => !(defIsPath d)) = (verbFragsOf l).map APIDef.verb := by
  induction l with
  | nil => rfl
  | cons d l ih =>
    cases d with
    | path p => exact ih
    | verb v => exact congrArg (List.cons (APIDef.verb v)) ih

theorem merge_definitions_eq (l : List APIDef) :
    merge_definitions_parallel l =
      (groupByKey defRootKey (l.filter defIsPath)).map
        (fun g => match g.2 with
          | [d] => (match d with
             | .path pd => APIDef.path ⟨g.1, pd.yaml⟩
             | v => v)
          | ps => merge_path_group g.1 ps)
      ++ l.filter (fun d => !(defIsPath d)) := rfl

theorem merge_path_group_fold (ps : List APIDef) :
    ∀ acc, (∀ d ∈ ps, defIsPath d = true) →
      ps.foldl
        (fun acc d => match d with
          | APIDef.path pd =>
            (match acc with
             | none => some pd.yaml
             | some m => some (mergeIntoPathsObj m pd.yaml))
          | APIDef.verb _ => acc) acc
      = (ps.filterMap (fun d => (asPath d).map APIPath.yaml)).foldl
          (fun acc y => match acc with
            | none => some y
            | some m => some (mergeIntoPathsObj m y)) acc := by
  induction ps with
  | nil => intro acc _; rfl
  | cons d ps ih =>
    intro acc hall
    cases d with
    | path pd =>
      rw [List.foldl_cons]
      rw [show (APIDef.path pd :: ps).filterMap (fun d => (asPath d).map APIPath.yaml)
          = pd.yaml :: ps.filterMap (fun d => (asPath d).map APIPath.yaml) from by
        simp [List.filterMap_cons, asPath]]
      rw [List.foldl_cons]
      exact ih _ (fun d hd => hall d (List.mem_cons_of_mem _ hd))
    | verb v => exact absurd (hall (APIDef.verb v) (by simp)) (by simp [defIsPath])

theorem merge_path_group_eq (k : String) (ps : List APIDef)
    (hall : ∀ d ∈ ps, defIsPath d = true) :
    merge_path_group k ps =
      APIDef.path ⟨k, (foldMergeOpt
        (ps.filterMap (fun d => (asPath d).map APIPath.yaml))).getD (Json.obj [])⟩ := by
  exact congrArg (fun o : Option Json => APIDef.path ⟨k, o.getD (Json.obj [])⟩)
    (merge_path_group_fold ps none hall)

theorem merge_char (l : List APIDef) :
    merge_definitions_parallel l =
      (firstDedup ((pathFragsOf l).map (fun p => get_root_path p.path))).map
        (fun k => APIDef.path ⟨k,
          (foldMergeOpt ((pathsWithRoot l k).map APIPath.yaml)).getD (Json.obj [])⟩)
      ++ (verbFragsOf l).map APIDef.verb := by
  rw [merge_definitions_eq, filter_path_eq, filter_not_path_eq, groupByKey_eq]
  have hkeys : List.map defRootKey (List.map APIDef.path (pathFragsOf l))
      = List.map (fun p => get_root_path p.path) (pathFragsOf l) := by
    rw [List.map_map]
    rfl
  rw [hkeys]
  congr 1
  rw [List.map_map]
  refine List.map_congr_left ?_
  intro k hk
  show (match List.filter (fun x => decide (defRootKey x = k))
      (List.map APIDef.path (pathFragsOf l)) with
    | [d] => (match d with
       | APIDef.path pd => APIDef.path ⟨k, pd.yaml⟩
       | v => v)
    | ps => merge_path_group k ps)
    = APIDef.path ⟨k,
        (foldMergeOpt ((pathsWithRoot l k).map APIPath.yaml)).getD (Json.obj [])⟩
  have hps : List.filter (fun x => decide (defRootKey x = k))
        (List.map APIDef.path (pathFragsOf l))
      = List.map APIDef.path (pathsWithRoot l k) := by
    rw [List.filter_map]
    rfl
  rw [hps]
  rcases hw : pathsWithRoot l k with - | ⟨p, tail⟩
  · rfl
  · rcases tail with - | ⟨p2, rest⟩
    · rfl
    · show merge_path_group k (List.map APIDef.path (p :: p2 :: rest))
        = APIDef.path ⟨k,
            (foldMergeOpt ((p :: p2 :: rest).map APIPath.yaml)).getD (Json.obj [])⟩
      rw [merge_path_group_eq k _ ?_]
      · rw [List.filterMap_map,
          show ((fun d => Option.map APIPath.yaml (asPath d)) ∘ APIDef.path)
            = fun p : APIPath => some p.yaml from rfl,
          filterMap_some_eq_map]
      · intro d hd
        rcases List.mem_map.mp hd with ⟨q, -, hq⟩
        rw [← hq]
        rfl

theorem merge_verbFrags (l : List APIDef) :
    verbFragsOf (merge_definitions_parallel l) = verbFragsOf l := by
  rw [merge_char, verbFragsOf, List.filterMap_append, List.filterMap_map, List.filterMap_map]
  rw [show (asVerb ∘ fun k => APIDef.path ⟨k,
      (foldMergeOpt ((pathsWithRoot l k).map APIPath.yaml)).getD (Json.obj [])⟩)
    = fun _ : String => (none : Option APIVerb) from rfl]
  rw [show (asVerb ∘ APIDef.verb) = fun v : APIVerb => some v from rfl]
  simp [filterMap_some_eq_map]

theorem merge_pathFrags (l : List APIDef) :
    pathFragsOf (merge_definitions_parallel l) =
      (firstDedup ((pathFragsOf l).map (fun p => get_root_path p.path))).map
        (fun k => ⟨k,
          (foldMergeOpt ((pathsWithRoot l k).map APIPath.yaml)).getD (Json.obj [])⟩) := by
  rw [merge_char, pathFragsOf, List.filterMap_append, List.filterMap_map, List.filterMap_map]
  rw [show (asPath ∘ fun k => APIDef.path ⟨k,
      (foldMergeOpt ((pathsWithRoot l k).map APIPath.yaml)).getD (Json.obj [])⟩)
    = fun k => some (⟨k,
      (foldMergeOpt ((pathsWithRoot l k).map APIPath.yaml)).getD (Json.obj [])⟩ : APIPath)
    from rfl]
  rw [show (asPath ∘ APIDef.verb) = fun _ : APIVerb => (none : Option APIPath) from rfl]
  simp [filterMap_some_eq_map]

theorem get_root_path_eq (p : String) :
    get_root_path p =
      if ((p.toList.dropWhile (fun c => c = '/')).takeWhile (fun c => c ≠ '/')).isEmpty
      then "/"
      else String.mk ('/' ::
        (p.toList.dropWhile (fun c => c = '/')).takeWhile (fun c => c ≠ '/')) := rfl

theorem get_root_path_idem (p : String) :
    get_root_path (get_root_path p) = get_root_path p := by
  rcases hfh : (p.toList.dropWhile (fun c => c = '/')).takeWhile (fun c => c ≠ '/') with
    - | ⟨c, cs⟩
  · rw [get_root_path_eq p, hfh]
    rw [if_pos (show ([] : List Char).isEmpty = true from rfl)]
    decide
  · have hc : ¬ c = '/' := by
      have hmem : c ∈ (p.toList.dropWhile (fun c => c = '/')).takeWhile (fun c => c ≠ '/') := by
        rw [hfh]
        simp
      simpa using List.mem_takeWhile_imp hmem
    have hall : ∀ x ∈ c :: cs, (fun c => decide (c ≠ '/')) x = true := by
      intro x hx
      have hmem : x ∈ (p.toList.dropWhile (fun c => c = '/')).takeWhile (fun c => c ≠ '/') := by
        rw [hfh]
        exact hx
      simpa using List.mem_takeWhile_imp hmem
    rw [get_root_path_eq p, hfh]
    rw [if_neg (by simp)]
    rw [get_root_path_eq]
    have ht : ((String.mk ('/' :: c :: cs)).toList.dropWhile (fun c => c = '/')) = c :: cs := by
      show (('/' :: c :: cs).dropWhile (fun c => c = '/')) = c :: cs
      rw [List.dropWhile_cons_of_pos (by decide),
        List.dropWhile_cons_of_neg (by simpa using hc)]
    rw [ht, List.takeWhile_eq_self_iff.mpr hall, if_neg (by simp)]

theorem find?_map_keyed (ks : List String) (w : String → Json) (k : String) :
    ((ks.map (fun k2 => (⟨k2, w k2⟩ : APIPath))).find? (fun p => p.path = k))
      = if k ∈ ks then some ⟨k, w k⟩ else none := by
  induction ks with
  | nil => simp
  | cons k2 ks ih =>
    rw [List.map_cons]
    by_cases h : k2 = k
    · subst h
      rw [List.find?_cons_of_pos _ (by simp), if_pos (by simp)]
    · rw [List.find?_cons_of_neg _ (by simp [h]), ih]
      by_cases h2 : k ∈ ks
      · rw [if_pos h2, if_pos (List.mem_cons_of_mem _ h2)]
      · rw [if_neg h2, if_neg (by
          intro hm
          rcases List.mem_cons.mp hm with h3 | h3
          · exact h h3.symm
          · exact h2 h3)]

theorem foldMergeOpt_nil : foldMergeOpt [] = none := rfl

theorem pathsWithRoot_nonempty_iff (l : List APIDef) (k : String) :
    pathsWithRoot l k ≠ [] ↔
      k ∈ (pathFragsOf l).map (fun p => get_root_path p.path) := by
  constructor
  · intro hne
    rcases hw : pathsWithRoot l k with - | ⟨p, tail⟩
    · exact absurd hw hne
    · have hp : p ∈ pathsWithRoot l k := by rw [hw]; simp
      rcases List.mem_filter.mp hp with ⟨hmem, hpk⟩
      have : get_root_path p.path = k := by simpa using hpk
      exact this ▸ List.mem_map_of_mem _ hmem
  · intro hmem
    rcases List.mem_map.mp hmem with ⟨p, hp, hpk⟩
    intro hnil
    have : p ∈ pathsWithRoot l k := List.mem_filter.mpr ⟨hp, by simp [hpk]⟩
    rw [hnil] at this
    simp at this

theorem findYamlAt_merge (l : List APIDef) (k : String) :
    findYamlAt (merge_definitions_parallel l) k
      = foldMergeOpt ((pathsWithRoot l k).map APIPath.yaml) := by
  rw [findYamlAt, merge_pathFrags, find?_map_keyed]
  by_cases hk : k ∈ firstDedup ((pathFragsOf l).map (fun p => get_root_path p.path))
  · rw [if_pos hk]
    have hne : pathsWithRoot l k ≠ [] :=
      (pathsWithRoot_nonempty_iff l k).mpr ((mem_firstDedup _ _).mp hk)
    rcases hw : pathsWithRoot l k with - | ⟨p, tail⟩
    · exact absurd hw hne
    · rw [List.map_cons, foldMergeOpt_cons]
      rfl
  · rw [if_neg hk]
    have hempty : pathsWithRoot l k = [] := by
      by_contra hne
      exact hk ((mem_firstDedup _ _).mpr ((pathsWithRoot_nonempty_iff l k).mp hne))
    rw [hempty]
    rfl

/-! ## Claim C2: operation fragments in the merge stage -/

/-- C2 (counterexample): the merge stage does not key operation fragments
at all — two verb fragments with the same (canonical path, method) key
both survive, so the output holds two operations for the key
`("/u", "GET")` instead of at most one. -/
theorem c2_verb_dedup_cex :
    verbKeyList (merge_definitions_parallel
        [APIDef.verb ⟨"GET", "/u", "/u", Json.num 1⟩,
         APIDef.verb ⟨"GET", "/u", "/u", Json.num 2⟩])
      = [("/u", "GET"), ("/u", "GET")]
    ∧ ¬ (verbKeyList (merge_definitions_parallel
        [APIDef.verb ⟨"GET", "/u", "/u", Json.num 1⟩,
         APIDef.verb ⟨"GET", "/u", "/u", Json.num 2⟩])).Nodup := by
  constructor
  · rfl
  · decide

/-- C2 (amended): the merge stage passes operation fragments through
unchanged — it performs no keying and no overwriting on them — so the
output holds at most one operation fragment per (canonical path, method)
key exactly when the input does, as the split stage's output does. -/
theorem c2_merge_verbs_amended (l : List APIDef)
    (h : (verbKeyList l).Nodup) :
    verbFragsOf (merge_definitions_parallel l) = verbFragsOf l
    ∧ (verbKeyList (merge_definitions_parallel l)).Nodup := by
  refine ⟨merge_verbFrags l, ?_⟩
  rw [verbKeyList, merge_verbFrags]
  exact h

/-- C2 (witness): the amended theorem applied to a two-fragment list with
distinct keys. -/
theorem c2_merge_verbs_amended_witness :
    verbFragsOf (merge_definitions_parallel
        [APIDef.verb ⟨"GET", "/u", "/u", Json.null⟩,
         APIDef.verb ⟨"POST", "/u", "/u", Json.null⟩])
      = verbFragsOf
        [APIDef.verb ⟨"GET", "/u", "/u", Json.null⟩,
         APIDef.verb ⟨"POST", "/u", "/u", Json.null⟩] :=
  (c2_merge_verbs_amended
    [APIDef.verb ⟨"GET", "/u", "/u", Json.null⟩,
     APIDef.verb ⟨"POST", "/u", "/u", Json.null⟩] (by decide)).1

/-! ## Claim C10: the merge stage never alters verb fragments -/

/-- C10: the verb fragments of the merge output are exactly the verb
fragments of the input, in order and with every field (verb, path,
root_path, yaml) unchanged; in particular their number is preserved, and
only path fragments are regrouped. -/
theorem c10_merge_preserves_verbs (l : List APIDef) :
    verbFragsOf (merge_definitions_parallel l) = verbFragsOf l
    ∧ (verbFragsOf (merge_definitions_parallel l)).length = (verbFragsOf l).length := by
  refine ⟨merge_verbFrags l, ?_⟩
  rw [merge_verbFrags l]

theorem get?_obj (fs : List (String × Json)) (k : String) :
    (Json.obj fs).get? k = findField fs k := rfl

theorem firstPathsHit_cons_none (y : Json) (ys : List Json) (k : String)
    (hy : y.get? "paths" = none) :
    firstPathsHit (y :: ys) k = firstPathsHit ys k := by
  simp only [firstPathsHit, hy]

theorem firstPathsHit_cons_some (y : Json) (ys : List Json) (k : String) (po : Json)
    (hy : y.get? "paths" = some po) :
    firstPathsHit (y :: ys) k =
      (match po.get? k with
       | some v => some v
       | none => firstPathsHit ys k) := by
  simp only [firstPathsHit, hy]

theorem get?_nonobj (po : Json) (k : String) (h : ∀ fs, po ≠ Json.obj fs) :
    po.get? k = none := by
  cases po <;> first
    | rfl
    | exact absurd rfl (h _)

theorem foldl_merge_paths_char (ys : List Json) :
    ∀ mf mpf, findField mf "paths" = some (Json.obj mpf) →
      ∃ rpf, ys.foldl mergeIntoPathsObj (Json.obj mf)
          = Json.obj (setField mf "paths" (Json.obj rpf))
        ∧ ∀ k2, findField rpf k2 =
            (match findField mpf k2 with
             | some v => some v
             | none => firstPathsHit ys k2) := by
  induction ys with
  | nil =>
    intro mf mpf hm
    refine ⟨mpf, ?_, ?_⟩
    · rw [setField_self mf "paths" _ hm]
      rfl
    · intro k2
      cases findField mpf k2 <;> rfl
  | cons y ys ih =>
    intro mf mpf hm
    rw [List.foldl_cons]
    cases hy : y.get? "paths" with
    | some po =>
      cases po with
      | obj pfp =>
        rw [mergeInto_apply mf mpf y pfp hm hy]
        have hm2 : findField (setField mf "paths"
              (Json.obj (pfp.foldl insertIfAbsent mpf))) "paths"
            = some (Json.obj (pfp.foldl insertIfAbsent mpf)) :=
          setField_findField_self mf "paths" _ _ hm
        rcases ih _ _ hm2 with ⟨rpf, heq, hlook⟩
        refine ⟨rpf, ?_, ?_⟩
        · rw [heq, setField_setField]
        · intro k2
          rw [hlook k2, ins_lookup, firstPathsHit_cons_some y ys k2 _ hy, get?_obj]
          cases findField mpf k2 with
          | some v => rfl
          | none => cases findField pfp k2 <;> rfl
      | null =>
        rw [mergeInto_y_nopaths _ y (fun pfp hc =>
          Json.noConfusion (Option.some.inj (hy ▸ hc)))]
        rcases ih mf mpf hm with ⟨rpf, heq, hlook⟩
        refine ⟨rpf, heq, ?_⟩
        intro k2
        rw [hlook k2, firstPathsHit_cons_some y ys k2 _ hy]
        cases findField mpf k2 <;> rfl
      | bool b =>
        rw [mergeInto_y_nopaths _ y (fun pfp hc =>
          Json.noConfusion (Option.some.inj (hy ▸ hc)))]
        rcases ih mf mpf hm with ⟨rpf, heq, hlook⟩
        refine ⟨rpf, heq, ?_⟩
        intro k2
        rw [hlook k2, firstPathsHit_cons_some y ys k2 _ hy]
        cases findField mpf k2 <;> rfl
      | num n =>
        rw [mergeInto_y_nopaths _ y (fun pfp hc =>
          Json.noConfusion (Option.some.inj (hy ▸ hc)))]
        rcases ih mf mpf hm with ⟨rpf, heq, hlook⟩
        refine ⟨rpf, heq, ?_⟩
        intro k2
        rw [hlook k2, firstPathsHit_cons_some y ys k2 _ hy]
        cases findField mpf k2 <;> rfl
      | str t =>
        rw [mergeInto_y_nopaths _ y (fun pfp hc =>
          Json.noConfusion (Option.some.inj (hy ▸ hc)))]
        rcases ih mf mpf hm with ⟨rpf, heq, hlook⟩
        refine ⟨rpf, heq, ?_⟩
        intro k2
        rw [hlook k2, firstPathsHit_cons_some y ys k2 _ hy]
        cases findField mpf k2 <;> rfl
      | arr xs =>
        rw [mergeInto_y_nopaths _ y (fun pfp hc =>
          Json.noConfusion (Option.some.inj (hy ▸ hc)))]
        rcases ih mf mpf hm with ⟨rpf, heq, hlook⟩
        refine ⟨rpf, heq, ?_⟩
        intro k2
        rw [hlook k2, firstPathsHit_cons_some y ys k2 _ hy]
        cases findField mpf k2 <;> rfl
    | none =>
      rw [mergeInto_y_nopaths _ y (fun pfp hc => Option.noConfusion (hy ▸ hc))]
      rcases ih mf mpf hm with ⟨rpf, heq, hlook⟩
      refine ⟨rpf, heq, ?_⟩
      intro k2
      rw [hlook k2, firstPathsHit_cons_none y ys k2 hy]

theorem filter_eq_length_one (ks : List String) (k : String)
    (hnd : ks.Nodup) (hk : k ∈ ks) :
    (ks.filter (fun x => x = k)).length = 1 := by
  induction ks with
  | nil => simp at hk
  | cons k2 ks ih =>
    rw [List.filter_cons]
    by_cases h : k2 = k
    · subst h
      rw [if_pos (by simp)]
      have hout : k2 ∉ ks := (List.nodup_cons.mp hnd).1
      have hfil : ks.filter (fun x => x = k2) = [] := by
        rw [List.filter_eq_nil_iff]
        intro x hx
        simp only [decide_eq_true_eq]
        intro hh
        exact hout (hh ▸ hx)
      rw [hfil]
      rfl
    · rw [if_neg (by simp [h])]
      rcases List.mem_cons.mp hk with h2 | h2
      · exact absurd h2.symm h
      · exact ih (List.nodup_cons.mp hnd).2 h2

theorem pathFrag_WF (l : List APIDef) (hwf : ∀ d ∈ l, fragWFB d = true)
    (p : APIPath) (hp : p ∈ pathFragsOf l) : hasPathsObjB p.yaml = true := by
  rcases List.mem_filterMap.mp hp with ⟨d, hd, hdp⟩
  cases d with
  | path q =>
    have hq : q = p := Option.some.inj hdp
    exact hq ▸ hwf _ hd
  | verb v => exact Option.noConfusion hdp

theorem filter_eq_nodup (ks : List String) (k : String) (hnd : ks.Nodup) :
    ks.filter (fun x => x = k) = if k ∈ ks then [k] else [] := by
  induction ks with
  | nil => simp
  | cons a ks ih =>
    rw [List.filter_cons]
    by_cases h : a = k
    · subst h
      rw [if_pos (by simp)]
      have hout : a ∉ ks := (List.nodup_cons.mp hnd).1
      have hfil : ks.filter (fun x => x = a) = [] := by
        rw [List.filter_eq_nil_iff]
        intro x hx
        simp only [decide_eq_true_eq]
        intro hh
        exact hout (hh ▸ hx)
      rw [hfil, if_pos (by simp)]
    · rw [if_neg (by simp [h]), ih (List.nodup_cons.mp hnd).2]
      by_cases h2 : k ∈ ks
      · rw [if_pos h2, if_pos (List.mem_cons_of_mem _ h2)]
      · rw [if_neg h2, if_neg (by
          intro hm
          rcases List.mem_cons.mp hm with h3 | h3
          · exact h h3.symm
          · exact h2 h3)]

theorem filter_path_map_keyed (ks : List String) (f : String → APIPath) (k : String)
    (hf : ∀ x, (f x).path = x) :
    ((ks.map f).filter (fun p => p.path = k)) = (ks.filter (fun x => x = k)).map f := by
  induction ks with
  | nil => rfl
  | cons a ks ih =>
    rw [List.map_cons, List.filter_cons, List.filter_cons]
    by_cases h : a = k
    · rw [if_pos (by simp [hf, h]), if_pos (by simp [h]), List.map_cons, ih]
    · rw [if_neg (by simp [hf, h]), if_neg (by simp [h]), ih]

/-! ## Claim C3: combining path fragments that share a resource key -/

/-- C3 (counterexample): the merge stage does not form the union of the
method maps. Two path fragments keyed `"/users"` bind the route `"/users"`
to method maps `{get}` and `{post}` respectively; the claim's union would
contain both methods, but the merged body keeps the first fragment's route
value unchanged, so method `"post"` is lost entirely. -/
theorem c3_method_union_cex :
    findYamlAt (merge_definitions_parallel
        [APIDef.path ⟨"/users", Json.obj [("paths",
            Json.obj [("/users", Json.obj [("get", Json.num 1)])])]⟩,
         APIDef.path ⟨"/users", Json.obj [("paths",
            Json.obj [("/users", Json.obj [("post", Json.num 2)])])]⟩]) "/users"
      = some (Json.obj [("paths",
          Json.obj [("/users", Json.obj [("get", Json.num 1)])])]) := rfl

/-- C3 (amended): when every path fragment's document binds `"paths"` to an
object, all path fragments sharing a resource key are combined into exactly
one path fragment whose path string equals that resource key; its body is
the group's first document with the `"paths"` object replaced by the
first-seen-wins union of the group's `"paths"` objects taken at the
route-entry level: a route key's whole value comes from the first fragment
of the group that binds that route key, and later method maps for an
already-bound route key are discarded rather than merged per method. -/
theorem c3_merge_shared_key_amended (l : List APIDef) (k : String)
    (hwf : ∀ d ∈ l, fragWFB d = true)
    (hne : pathsWithRoot l k ≠ []) :
    ((pathFragsOf (merge_definitions_parallel l)).filter (fun p => p.path = k)).length = 1
    ∧ ∃ mf rpf,
        ((pathsWithRoot l k).map APIPath.yaml).head? = some (Json.obj mf)
        ∧ findYamlAt (merge_definitions_parallel l) k
            = some (Json.obj (setField mf "paths" (Json.obj rpf)))
        ∧ ∀ k2, findField rpf k2
            = firstPathsHit ((pathsWithRoot l k).map APIPath.yaml) k2 := by
  have hk : k ∈ firstDedup ((pathFragsOf l).map (fun p => get_root_path p.path)) :=
    (mem_firstDedup _ _).mpr ((pathsWithRoot_nonempty_iff l k).mp hne)
  constructor
  · rw [merge_pathFrags, filter_path_map_keyed _ _ _ (fun x => rfl),
        filter_eq_nodup _ _ (nodup_firstDedup _), if_pos hk]
    rfl
  · rcases hw : pathsWithRoot l k with - | ⟨p, tail⟩
    · exact absurd hw hne
    · have hpmem : p ∈ pathFragsOf l := by
        have hin : p ∈ pathsWithRoot l k := by rw [hw]; simp
        exact (List.mem_filter.mp hin).1
      have hpwf : hasPathsObjB p.yaml = true := pathFrag_WF l hwf p hpmem
      obtain ⟨mf, mpf, hyeq, hmp⟩ := hasPathsObj_shape p.yaml hpwf
      rcases foldl_merge_paths_char (tail.map APIPath.yaml) mf mpf hmp with ⟨rpf, heq, hlook⟩
      refine ⟨mf, rpf, ?_, ?_, ?_⟩
      · rw [List.map_cons, List.head?_cons, hyeq]
      · rw [findYamlAt_merge, hw, List.map_cons, foldMergeOpt_cons, hyeq, heq]
      · intro k2
        rw [List.map_cons, hyeq,
            firstPathsHit_cons_some (Json.obj mf) _ k2 (Json.obj mpf)
              (by rw [get?_obj, hmp]),
            get?_obj]
        exact hlook k2

/-- C3 witness: a concrete two-fragment group keyed `"/users"` satisfies the
well-formedness hypotheses, and the merge emits exactly one path fragment
for that key. -/
theorem c3_merge_shared_key_amended_witness :
    ((pathFragsOf (merge_definitions_parallel
        [APIDef.path ⟨"/users", Json.obj [("paths",
            Json.obj [("/users", Json.obj [("get", Json.num 1)])])]⟩,
         APIDef.path ⟨"/users/{id}", Json.obj [("paths",
            Json.obj [("/users/{id}", Json.obj [("get", Json.num 2)])])]⟩])).filter
      (fun p => p.path = "/users")).length = 1 := by
  have hne : pathsWithRoot
      [APIDef.path ⟨"/users", Json.obj [("paths",
          Json.obj [("/users", Json.obj [("get", Json.num 1)])])]⟩,
       APIDef.path ⟨"/users/{id}", Json.obj [("paths",
          Json.obj [("/users/{id}", Json.obj [("get", Json.num 2)])])]⟩] "/users" ≠ [] :=
    fun h => absurd (congrArg List.length h) (by decide)
  exact (c3_merge_shared_key_amended _ "/users" (by decide) hne).1

/-! ## Lemmas for partition invariance of the merge -/

theorem foldMergeOpt_optToList (o : Option Json) :
    foldMergeOpt (optToList o) = o := by
  cases o <;> rfl

theorem foldMergeOpt_WF (ys : List Json) (hys : ∀ y ∈ ys, hasPathsObjB y = true)
    (z : Json) (hz : foldMergeOpt ys = some z) : hasPathsObjB z = true := by
  cases ys with
  | nil => exact Option.noConfusion hz
  | cons y t =>
    rw [foldMergeOpt_cons] at hz
    rw [← Option.some.inj hz]
    exact foldl_merge_WF t y (hys y (by simp))

theorem foldMerge_blocks (yss : List (List Json))
    (hwf : ∀ ys ∈ yss, ∀ y ∈ ys, hasPathsObjB y = true) :
    foldMergeOpt ((yss.map (fun ys => optToList (foldMergeOpt ys))).flatten)
      = foldMergeOpt yss.flatten := by
  induction yss with
  | nil => rfl
  | cons ys yss ih =>
    rw [List.map_cons, List.flatten_cons, List.flatten_cons]
    have htailwf : ∀ ys2 ∈ yss, ∀ y ∈ ys2, hasPathsObjB y = true :=
      fun ys2 h2 => hwf ys2 (List.mem_cons_of_mem _ h2)
    have hz1 : ∀ z ∈ (yss.map (fun ys2 => optToList (foldMergeOpt ys2))).flatten,
        hasPathsObjB z = true := by
      intro z hz
      rcases List.mem_flatten.mp hz with ⟨zl, hzl, hzmem⟩
      rcases List.mem_map.mp hzl with ⟨ys2, hys2, hzeq⟩
      rw [← hzeq] at hzmem
      cases ho : foldMergeOpt ys2 with
      | none =>
        rw [ho] at hzmem
        exact absurd hzmem (by simp [optToList])
      | some z2 =>
        rw [ho] at hzmem
        have hzz : z = z2 := by simpa [optToList] using hzmem
        exact hzz ▸ foldMergeOpt_WF ys2 (htailwf ys2 hys2) z2 ho
    have hz2 : ∀ z ∈ yss.flatten, hasPathsObjB z = true := by
      intro z hz
      rcases List.mem_flatten.mp hz with ⟨zl, hzl, hzmem⟩
      exact htailwf zl hzl z hzmem
    rw [foldMergeOpt_append _ _ hz1, foldMergeOpt_append _ _ hz2,
        foldMergeOpt_optToList, ih htailwf]

theorem filter_root_map_keyed (ks : List String) (f : String → APIPath) (k : String)
    (hf : ∀ x ∈ ks, (f x).path = x ∧ get_root_path x = x) :
    ((ks.map f).filter (fun p => get_root_path p.path = k))
      = (ks.filter (fun x => x = k)).map f := by
  induction ks with
  | nil => rfl
  | cons a ks ih =>
    rw [List.map_cons, List.filter_cons, List.filter_cons]
    have ha := hf a (by simp)
    have ih2 := ih (fun x hx => hf x (List.mem_cons_of_mem _ hx))
    by_cases h : a = k
    · subst h
      rw [if_pos (by simp [ha.1, ha.2]), if_pos (by simp), List.map_cons, ih2]
    · rw [if_neg (by simp [ha.1, ha.2, h]), if_neg (by simp [h]), ih2]

theorem pathsWithRoot_merge (b : List APIDef) (k : String) :
    (pathsWithRoot (merge_definitions_parallel b) k).map APIPath.yaml
      = optToList (foldMergeOpt ((pathsWithRoot b k).map APIPath.yaml)) := by
  rw [pathsWithRoot, merge_pathFrags,
      filter_root_map_keyed _ _ _ (fun x hx => ⟨rfl, by
        rcases List.mem_map.mp ((mem_firstDedup _ _).mp hx) with ⟨p, hp, hpk⟩
        rw [← hpk, get_root_path_idem]⟩),
      filter_eq_nodup _ _ (nodup_firstDedup _)]
  by_cases hk : k ∈ firstDedup ((pathFragsOf b).map (fun p => get_root_path p.path))
  · rw [if_pos hk]
    have hne : pathsWithRoot b k ≠ [] :=
      (pathsWithRoot_nonempty_iff b k).mpr ((mem_firstDedup _ _).mp hk)
    rcases hw : pathsWithRoot b k with - | ⟨p, tail⟩
    · exact absurd hw hne
    · simp only [List.map_cons, List.map_nil]
      rw [hw]
      simp [foldMergeOpt_cons, optToList]
  · rw [if_neg hk]
    have hempty : pathsWithRoot b k = [] := by
      by_contra hne
      exact hk ((mem_firstDedup _ _).mpr ((pathsWithRoot_nonempty_iff b k).mp hne))
    rw [hempty]
    rfl

theorem pathsWithRoot_append (l1 l2 : List APIDef) (k : String) :
    pathsWithRoot (l1 ++ l2) k = pathsWithRoot l1 k ++ pathsWithRoot l2 k := by
  rw [pathsWithRoot, pathsWithRoot, pathsWithRoot, pathFragsOf, pathFragsOf, pathFragsOf,
      List.filterMap_append, List.filter_append]

theorem pathsWithRootYaml_flatten (bs : List (List APIDef)) (k : String) :
    (pathsWithRoot bs.flatten k).map APIPath.yaml
      = (bs.map (fun b => (pathsWithRoot b k).map APIPath.yaml)).flatten := by
  induction bs with
  | nil => rfl
  | cons b bs ih =>
    rw [List.flatten_cons, pathsWithRoot_append, List.map_append, List.map_cons,
        List.flatten_cons, ih]

theorem verbFragsOf_append (l1 l2 : List APIDef) :
    verbFragsOf (l1 ++ l2) = verbFragsOf l1 ++ verbFragsOf l2 := by
  rw [verbFragsOf, verbFragsOf, verbFragsOf, List.filterMap_append]

theorem verbFragsOf_flatten_merge (bs : List (List APIDef)) :
    verbFragsOf ((bs.map merge_definitions_parallel).flatten) = verbFragsOf bs.flatten := by
  induction bs with
  | nil => rfl
  | cons b bs ih =>
    rw [List.map_cons, List.flatten_cons, List.flatten_cons, verbFragsOf_append,
        verbFragsOf_append, merge_verbFrags, ih]

/-! ## Claim C8: partition invariance of the merge -/

/-- C8 (counterexample): merging the partitions first and then reducing is
not equivalent to one sequential merge. The fragment with no `"paths"`
member is inert as a right operand but destructive as a merge-group head:
sequentially, the winner at `"/u"` holds route keys `"/u"` and `"/u/x"`,
while the per-partition merge of the second partition is headed by the
degenerate fragment and drops `"/u/x"`, so the reduced winner holds only
`"/u"`. -/
theorem c8_partition_invariance_cex :
    (findYamlAt (merge_definitions_parallel
        ([APIDef.path ⟨"/u", Json.obj [("paths",
             Json.obj [("/u", Json.obj [("a", Json.num 1)])])]⟩]
         ++ [APIDef.path ⟨"/u", Json.obj []⟩,
             APIDef.path ⟨"/u", Json.obj [("paths",
               Json.obj [("/u/x", Json.obj [("b", Json.num 2)])])]⟩])) "/u").map pathsKeysOf
      = some ["/u", "/u/x"]
    ∧ (findYamlAt (merge_definitions_parallel
        (merge_definitions_parallel
          [APIDef.path ⟨"/u", Json.obj [("paths",
             Json.obj [("/u", Json.obj [("a", Json.num 1)])])]⟩]
         ++ merge_definitions_parallel
          [APIDef.path ⟨"/u", Json.obj []⟩,
           APIDef.path ⟨"/u", Json.obj [("paths",
             Json.obj [("/u/x", Json.obj [("b", Json.num 2)])])]⟩])) "/u").map pathsKeysOf
      = some ["/u"] :=
  ⟨rfl, rfl⟩

/-- C8 (amended): partition invariance holds for well-formed fragments. When
every path fragment's document binds `"paths"` to an object, merging each
partition separately and then merging the concatenated partial results
yields the same winning value for every resource key, and the same verb
fragments, as one sequential merge of the concatenated fragment list. -/
theorem c8_partition_invariance_amended (bs : List (List APIDef))
    (hwf : ∀ b ∈ bs, ∀ d ∈ b, fragWFB d = true) :
    (∀ k, findYamlAt (merge_definitions_parallel
            ((bs.map merge_definitions_parallel).flatten)) k
        = findYamlAt (merge_definitions_parallel bs.flatten) k)
    ∧ verbFragsOf (merge_definitions_parallel ((bs.map merge_definitions_parallel).flatten))
        = verbFragsOf (merge_definitions_parallel bs.flatten) := by
  constructor
  · intro k
    rw [findYamlAt_merge, findYamlAt_merge,
        pathsWithRootYaml_flatten, pathsWithRootYaml_flatten, List.map_map]
    rw [show bs.map ((fun b => (pathsWithRoot b k).map APIPath.yaml) ∘ merge_definitions_parallel)
        = bs.map (fun b => optToList (foldMergeOpt ((pathsWithRoot b k).map APIPath.yaml)))
      from List.map_congr_left (fun b _ => pathsWithRoot_merge b k)]
    rw [show bs.map (fun b => optToList (foldMergeOpt ((pathsWithRoot b k).map APIPath.yaml)))
        = (bs.map (fun b => (pathsWithRoot b k).map APIPath.yaml)).map
            (fun ys => optToList (foldMergeOpt ys))
      from (List.map_map (fun ys => optToList (foldMergeOpt ys))
        (fun b => (pathsWithRoot b k).map APIPath.yaml) bs).symm]
    refine foldMerge_blocks _ ?_
    intro ys hys y hy
    rcases List.mem_map.mp hys with ⟨b, hb, hbeq⟩
    rw [← hbeq] at hy
    rcases List.mem_map.mp hy with ⟨p, hp, hpeq⟩
    rw [← hpeq]
    exact pathFrag_WF b (hwf b hb) p (List.mem_filter.mp hp).1
  · rw [merge_verbFrags, merge_verbFrags, verbFragsOf_flatten_merge]

/-- C8 witness: a concrete two-partition split of a well-formed fragment
list, on which the per-partition merge followed by a reduction agrees with
the sequential merge at the resource key the partitions share. -/
theorem c8_partition_invariance_amended_witness :
    findYamlAt (merge_definitions_parallel
        (([[APIDef.path ⟨"/u", Json.obj [("paths",
              Json.obj [("/u", Json.obj [("a", Json.num 1)])])]⟩],
           [APIDef.path ⟨"/u", Json.obj [("paths",
              Json.obj [("/u/x", Json.obj [("b", Json.num 2)])])]⟩,
            APIDef.verb ⟨"GET", "/u", "/u", Json.null⟩]].map
          merge_definitions_parallel).flatten)) "/u"
      = findYamlAt (merge_definitions_parallel
          [[APIDef.path ⟨"/u", Json.obj [("paths",
              Json.obj [("/u", Json.obj [("a", Json.num 1)])])]⟩],
           [APIDef.path ⟨"/u", Json.obj [("paths",
              Json.obj [("/u/x", Json.obj [("b", Json.num 2)])])]⟩,
            APIDef.verb ⟨"GET", "/u", "/u", Json.null⟩]].flatten) "/u" :=
  (c8_partition_invariance_amended
    [[APIDef.path ⟨"/u", Json.obj [("paths",
        Json.obj [("/u", Json.obj [("a", Json.num 1)])])]⟩],
     [APIDef.path ⟨"/u", Json.obj [("paths",
        Json.obj [("/u/x", Json.obj [("b", Json.num 2)])])]⟩,
      APIDef.verb ⟨"GET", "/u", "/u", Json.null⟩]] (by decide)).1 "/u"
